import Mathlib

/-!
Shallow embedding of `src/include/data_structures/s_list.hpp` (namespace `alg`,
class `s_list<T>`): a singly-linked list with a data-less sentinel head node
(`m_first`), a non-owning tail pointer (`m_last`) and an element counter
(`m_size`).

Pointers (`std::shared_ptr<node>`) are modelled as `Option Nat`: `none` is the
null pointer and `some i` points to cell `i` of an allocation table `heap`.
`std::make_shared<node>(item)` appends a fresh cell; reclamation by
`shared_ptr` reference counting has no observable effect on the container, so
cells are never removed from the table (an unreachable cell is simply garbage).

Every throw site of the source is mapped to the logical error kind of the
spec's taxonomy (§7): `EmptyContainer`, `ValueNotFound`, `InvalidNodeAccess`.
The unbounded `for`/`while` loops of the source are given fuel; exhausting the
fuel (which models non-termination on a corrupted, cyclic chain, and is proved
unreachable from the public API) is the distinguished outcome `outOfFuel`.
-/

set_option autoImplicit false

namespace SListSpec

/-- Logical error kinds of the spec (§7).  In the source, `EmptyContainer` and
`InvalidNodeAccess` are thrown as `std::logic_error` and `ValueNotFound` as
`std::invalid_argument`; `outOfFuel` is the modelling artifact for a loop that
would not terminate (never reachable from the public API). -/
inductive Err : Type where
  | EmptyContainer : Err
  | ValueNotFound : Err
  | InvalidNodeAccess : Err
  | outOfFuel : Err
  deriving Repr, DecidableEq

/-- A `std::shared_ptr<s_list<T>::node>`: null, or a reference to heap cell `i`. -/
abbrev Ptr : Type := Option Nat

/-- `s_list<T>::node` (s_list.hpp:54-101): one data value `m_data` and the
next-link `m_next`. -/
structure node (T : Type) : Type where
  m_data : T
  m_next : Ptr
  deriving Repr, DecidableEq

/-- The state of an `s_list<T>` object (s_list.hpp:171-173) together with the
allocation table holding its nodes. -/
structure SList (T : Type) : Type where
  heap : List (node T)
  m_first : Ptr
  m_last : Ptr
  m_size : Nat
  deriving Repr, DecidableEq

/-- Outcome of a mutating member function: normal return with the new state, or
a thrown error together with the state at the throw point. -/
inductive MRes (T : Type) : Type where
  | ok (s : SList T) : MRes T
  | error (e : Err) (s : SList T) : MRes T
  deriving Repr, DecidableEq

variable {T : Type}

/-- `std::make_shared<node>(item)` (the one-argument `node` constructor,
s_list.hpp:67-71, with the default `next = nullptr`): allocate a fresh cell. -/
def allocNode (s : SList T) (item : T) : Ptr × SList T :=
  (some s.heap.length, { s with heap := s.heap ++ [⟨item, none⟩] })

/-- Read `p->next()` (node::next, s_list.hpp:89-95): throws `InvalidNodeAccess`
("Can't get next node of node that isn't initialized") when `p` is null. -/
def readNext (s : SList T) (p : Ptr) : Except Err Ptr :=
  match p with
  | none => .error .InvalidNodeAccess
  | some i =>
    match s.heap[i]? with
    | none => .error .InvalidNodeAccess
    | some nd => .ok nd.m_next

/-- Read `p->get()` (node::get, s_list.hpp:77-83): throws `InvalidNodeAccess`
("Can't get value of node that isn't initialized") when `p` is null. -/
def readData (s : SList T) (p : Ptr) : Except Err T :=
  match p with
  | none => .error .InvalidNodeAccess
  | some i =>
    match s.heap[i]? with
    | none => .error .InvalidNodeAccess
    | some nd => .ok nd.m_data

/-- Write `p->next() = q` (an assignment through node::next's mutable
reference): same null guard as a read. -/
def writeNext (s : SList T) (p : Ptr) (q : Ptr) : Except Err (SList T) :=
  match p with
  | none => .error .InvalidNodeAccess
  | some i =>
    match s.heap[i]? with
    | none => .error .InvalidNodeAccess
    | some nd => .ok { s with heap := s.heap.set i { nd with m_next := q } }

/-- `s_list()` (s_list.hpp:179-184): allocate the sentinel (cell 0,
default-constructed data), `m_last = nullptr`, `m_size = 0`. -/
def s_list [Inhabited T] : SList T :=
  { heap := [⟨default, none⟩], m_first := some 0, m_last := none, m_size := 0 }

/-- `empty()` (s_list.hpp:210): `m_last == nullptr`. -/
def SList.empty (s : SList T) : Bool :=
  s.m_last.isNone

/-- `size()` (s_list.hpp:375-378): return `m_size`. -/
def SList.size (s : SList T) : Nat :=
  s.m_size

/-- The scan loop shared by find (s_list.hpp:224), erase (s_list.hpp:289) and
insert_after (s_list.hpp:326):
`for (; t != m_last && t->next()->get() != item; t = t->next()) ;`
`fuel` bounds the number of iterations; callers pass `s.heap.length + 1`, which
is proved sufficient for every state reachable from the public API. -/
def scanLoop [DecidableEq T] (s : SList T) (item : T) : Nat → Ptr → Except Err Ptr
  | 0, _ => .error .outOfFuel
  | fuel + 1, t =>
    if t = s.m_last then .ok t
    else
      match readNext s t with
      | .error e => .error e
      | .ok tn =>
        match readData s tn with
        | .error e => .error e
        | .ok v =>
          if v = item then .ok t
          else scanLoop s item fuel tn

/-- `find(item)` (s_list.hpp:217-233): `EmptyContainer` on an empty list; scan
from `m_first`; return `nullptr` when the scan stopped at `m_last` (not found),
else the sought node `t->next()`. -/
def find [DecidableEq T] (s : SList T) (item : T) : Except Err Ptr :=
  if s.empty then .error .EmptyContainer
  else
    match scanLoop s item (s.heap.length + 1) s.m_first with
    | .error e => .error e
    | .ok t =>
      if t = s.m_last then .ok none
      else readNext s t

/-- `push_back(item)` (s_list.hpp:239-252). -/
def push_back (s : SList T) (item : T) : MRes T :=
  if s.empty then
    -- m_first->next() = std::make_shared<node>(item);
    let (p, s₁) := allocNode s item
    match writeNext s₁ s.m_first p with
    | .error e => .error e s₁
    | .ok s₂ =>
      -- m_last = m_first->next();
      match readNext s₂ s.m_first with
      | .error e => .error e s₂
      | .ok l =>
        let s₃ : SList T := { s₂ with m_last := l }
        -- m_last->next() = nullptr;
        match writeNext s₃ l none with
        | .error e => .error e s₃
        | .ok s₄ => .ok { s₄ with m_size := s₄.m_size + 1 }
  else
    -- m_last->next() = std::make_shared<node>(item);
    let (p, s₁) := allocNode s item
    match writeNext s₁ s.m_last p with
    | .error e => .error e s₁
    | .ok s₂ =>
      -- m_last = m_last->next();
      match readNext s₂ s.m_last with
      | .error e => .error e s₂
      | .ok l =>
        let s₃ : SList T := { s₂ with m_last := l }
        -- m_last->next() = nullptr;
        match writeNext s₃ l none with
        | .error e => .error e s₃
        | .ok s₄ => .ok { s₄ with m_size := s₄.m_size + 1 }

/-- `push_front(item)` (s_list.hpp:258-274). -/
def push_front (s : SList T) (item : T) : MRes T :=
  if s.empty then
    -- m_first->next() = std::make_shared<node>(item);
    let (p, s₁) := allocNode s item
    match writeNext s₁ s.m_first p with
    | .error e => .error e s₁
    | .ok s₂ =>
      -- m_last = m_first->next();
      match readNext s₂ s.m_first with
      | .error e => .error e s₂
      | .ok l =>
        let s₃ : SList T := { s₂ with m_last := l }
        -- m_last->next() = nullptr;
        match writeNext s₃ l none with
        | .error e => .error e s₃
        | .ok s₄ => .ok { s₄ with m_size := s₄.m_size + 1 }
  else
    -- auto tmp = std::make_shared<node>(item);
    let (tmp, s₁) := allocNode s item
    -- tmp->next() = m_first->next();
    match readNext s₁ s.m_first with
    | .error e => .error e s₁
    | .ok fn =>
      match writeNext s₁ tmp fn with
      | .error e => .error e s₁
      | .ok s₂ =>
        -- m_first->next() = tmp;
        match writeNext s₂ s.m_first tmp with
        | .error e => .error e s₂
        | .ok s₃ =>
          -- m_last->next() = nullptr;
          match writeNext s₃ s.m_last none with
          | .error e => .error e s₃
          | .ok s₄ => .ok { s₄ with m_size := s₄.m_size + 1 }

/-- `erase(item)` (s_list.hpp:280-312). -/
def erase [DecidableEq T] (s : SList T) (item : T) : MRes T :=
  if s.empty then .error .EmptyContainer s
  else
    match scanLoop s item (s.heap.length + 1) s.m_first with
    | .error e => .error e s
    | .ok t =>
      -- if (t == m_last) throw; // node not found
      if t = s.m_last then .error .ValueNotFound s
      else
        -- to_be_removed = t->next();
        match readNext s t with
        | .error e => .error e s
        | .ok tn =>
          -- t->next() = t->next()->next();
          match readNext s tn with
          | .error e => .error e s
          | .ok tnn =>
            match writeNext s t tnn with
            | .error e => .error e s
            | .ok s₁ =>
              -- if (t->next() == nullptr) m_last = t;
              match readNext s₁ t with
              | .error e => .error e s₁
              | .ok tn2 =>
                let s₂ : SList T := if tn2 = none then { s₁ with m_last := t } else s₁
                -- if (m_first == m_last) m_last = nullptr;
                let s₃ : SList T :=
                  if s₂.m_first = s₂.m_last then { s₂ with m_last := none } else s₂
                -- m_size--;   (m_size > 0 whenever this point is reached)
                .ok { s₃ with m_size := s₃.m_size - 1 }

/-- `insert_after(pos, item)` (s_list.hpp:319-350). -/
def insert_after [DecidableEq T] (s : SList T) (pos item : T) : MRes T :=
  if s.empty then .error .EmptyContainer s
  else
    match scanLoop s pos (s.heap.length + 1) s.m_first with
    | .error e => .error e s
    | .ok prev₀ =>
      -- if (prev == m_last) throw; // previous node not found
      if prev₀ = s.m_last then .error .ValueNotFound s
      else
        -- prev = prev->next();
        match readNext s prev₀ with
        | .error e => .error e s
        | .ok prev =>
          -- auto new_node = std::make_shared<node>(item);
          let (new_node, s₁) := allocNode s item
          -- if (prev == m_last) { ... push_back with non-empty list ... }
          if prev = s.m_last then
            -- m_last->next() = new_node;
            match writeNext s₁ s.m_last new_node with
            | .error e => .error e s₁
            | .ok s₂ =>
              -- m_last = m_last->next();
              match readNext s₂ s.m_last with
              | .error e => .error e s₂
              | .ok l =>
                let s₃ : SList T := { s₂ with m_last := l }
                -- m_last->next() = nullptr;
                match writeNext s₃ l none with
                | .error e => .error e s₃
                | .ok s₄ => .ok { s₄ with m_size := s₄.m_size + 1 }
          else
            -- auto tmp = prev->next();
            match readNext s₁ prev with
            | .error e => .error e s₁
            | .ok tmp =>
              -- prev->next() = new_node;
              match writeNext s₁ prev new_node with
              | .error e => .error e s₁
              | .ok s₂ =>
                -- new_node->next() = tmp;
                match writeNext s₂ new_node tmp with
                | .error e => .error e s₂
                | .ok s₃ => .ok { s₃ with m_size := s₃.m_size + 1 }

/-- The loop of `clear()` (s_list.hpp:359-364):
`while (m_first->next() != nullptr) { ptr = m_first->next();
 m_first->next() = m_first->next()->next(); ptr.reset(); }` -/
def clearLoop : Nat → SList T → MRes T
  | 0, s => .error .outOfFuel s
  | fuel + 1, s =>
    match readNext s s.m_first with
    | .error e => .error e s
    | .ok fn =>
      if fn = none then .ok s
      else
        match readNext s fn with
        | .error e => .error e s
        | .ok fnn =>
          match writeNext s s.m_first fnn with
          | .error e => .error e s
          | .ok s₁ => clearLoop fuel s₁

/-- `clear()` (s_list.hpp:355-369): pop the first real node until the chain is
empty, then `m_last.reset(); m_size = 0;`.  The sentinel is retained. -/
def clear (s : SList T) : MRes T :=
  match clearLoop (s.heap.length + 1) s with
  | .error e s₁ => .error e s₁
  | .ok s₁ => .ok { s₁ with m_last := none, m_size := 0 }

/-- `front()` (s_list.hpp:384-390): `EmptyContainer` when empty, else the data
of `m_first->next()`. -/
def front (s : SList T) : Except Err T :=
  if s.empty then .error .EmptyContainer
  else
    match readNext s s.m_first with
    | .error e => .error e
    | .ok fn => readData s fn

/-- `back()` (s_list.hpp:396-402): `EmptyContainer` when empty, else
`m_last->get()`. -/
def back (s : SList T) : Except Err T :=
  if s.empty then .error .EmptyContainer
  else readData s s.m_last

/-- `s_list<T>::iterator` (s_list.hpp:109-168): a wrapped node pointer. -/
structure iterator : Type where
  m_ptr : Ptr
  deriving Repr, DecidableEq

/-- `begin()` (s_list.hpp:408-412): `iterator it { m_first->next() }`. -/
def begin (s : SList T) : Except Err iterator :=
  match readNext s s.m_first with
  | .error e => .error e
  | .ok p => .ok ⟨p⟩

/-- `end()` (s_list.hpp:418-422): `iterator it { m_last->next() }`.  Note that
`m_last` is the null pointer when the list is empty, so this read goes through
node::next's null guard. -/
def end_ (s : SList T) : Except Err iterator :=
  match readNext s s.m_last with
  | .error e => .error e
  | .ok p => .ok ⟨p⟩

/-- `iterator::operator*` (s_list.hpp:135): `m_ptr->get()`. -/
def iterator.deref (s : SList T) (it : iterator) : Except Err T :=
  readData s it.m_ptr

/-- Prefix `iterator::operator++` (s_list.hpp:141-145): `m_ptr = m_ptr->next()`.
The throw (when `m_ptr` is null) happens inside `m_ptr->next()`, before the
assignment, so on error the iterator object is unchanged. -/
def iterator.inc (s : SList T) (it : iterator) : Except Err iterator :=
  match readNext s it.m_ptr with
  | .error e => .error e
  | .ok p => .ok ⟨p⟩

/-- `operator==` on iterators (s_list.hpp:156): raw pointer comparison; total,
defined also for the end/null iterator. -/
def iterator.eq (a b : iterator) : Bool :=
  a.m_ptr == b.m_ptr

/-- The loop of the `initializer_list` constructor (s_list.hpp:190-195):
`for (auto item : args) push_back(item);`. -/
def pushAll (s : SList T) : List T → MRes T
  | [] => .ok s
  | a :: as =>
    match push_back s a with
    | .ok s₁ => pushAll s₁ as
    | .error e s₁ => .error e s₁

/-- `s_list(std::initializer_list<T> args)` (s_list.hpp:190-195): the default
constructor followed by `push_back` of every item.  `push_back` never throws
(proved below), so the fallback branch is dead. -/
def ofList [Inhabited T] (args : List T) : SList T :=
  match pushAll s_list args with
  | .ok s => s
  | .error _ _ => s_list

/-! ### Observable abstraction

The forward traversal of the list (what the iterator protocol visits between
`begin()` and the null pointer) is read off the state by walking next-links,
fuel-bounded exactly like the loops of the source. -/

/-- The data values along the chain starting at pointer `p`. -/
def chainFrom (s : SList T) : Nat → Ptr → Option (List T)
  | _fuel, none => some []
  | 0, some _ => none
  | fuel + 1, some i =>
    match s.heap[i]? with
    | none => none
    | some nd => (chainFrom s fuel nd.m_next).map (nd.m_data :: ·)

/-- The heap cell indices along the chain starting at pointer `p`. -/
def idsFrom (s : SList T) : Nat → Ptr → Option (List Nat)
  | _fuel, none => some []
  | 0, some _ => none
  | fuel + 1, some i =>
    match s.heap[i]? with
    | none => none
    | some nd => (idsFrom s fuel nd.m_next).map (i :: ·)

/-- Forward traversal of the list: the element values of the real nodes, in
chain order from the sentinel's next-link.  `none` only on corrupted states
(unreachable from the public API). -/
def toList (s : SList T) : Option (List T) :=
  match readNext s s.m_first with
  | .error _ => none
  | .ok p => chainFrom s s.heap.length p

/-- The heap cell indices of the real nodes, in chain order. -/
def idsOf (s : SList T) : Option (List Nat) :=
  match readNext s s.m_first with
  | .error _ => none
  | .ok p => idsFrom s s.heap.length p

/-- The data stored at heap cell `i`, when the cell is allocated. -/
def dataAt? (s : SList T) (i : Nat) : Option T :=
  (s.heap[i]?).map node.m_data

/-- Total version of `dataAt?` (used to state chain/value correspondences). -/
def dataAt [Inhabited T] (s : SList T) (i : Nat) : T :=
  ((s.heap[i]?).getD ⟨default, none⟩).m_data

/-- The element values of the cells `ids`. -/
def listOf [Inhabited T] (s : SList T) (ids : List Nat) : List T :=
  ids.map (dataAt s)

/-! ### Invariant and reachability -/

/-- `chainSeg s p ids q`: starting at pointer `p` and following next-links one
visits exactly the cells `ids` and then holds the pointer `q`. -/
inductive chainSeg (s : SList T) : Ptr → List Nat → Ptr → Prop where
  | nil (p : Ptr) : chainSeg s p [] p
  | cons {i : Nat} {nd : node T} {ids : List Nat} {q : Ptr} :
      s.heap[i]? = some nd → chainSeg s nd.m_next ids q →
      chainSeg s (some i) (i :: ids) q

/-- `chainRel s p ids`: from `p` the next-links visit exactly `ids`, then null. -/
def chainRel (s : SList T) (p : Ptr) (ids : List Nat) : Prop :=
  chainSeg s p ids none

/-- The representation invariant of an `s_list` state, with the chain of real
node cells `ids` made explicit: the sentinel is cell 0, the chain from the
sentinel visits `0 :: ids` and ends at null (spec I2, I4), `m_size` counts the
real nodes (I5), and `m_last` is null exactly on the empty list and otherwise
the last chain cell (I3). -/
structure InvW (s : SList T) (ids : List Nat) : Prop where
  first_eq : s.m_first = some 0
  hchain : chainRel s (some 0) (0 :: ids)
  hnodup : (0 :: ids).Nodup
  hsize : s.m_size = ids.length
  hlast : s.m_last = ids.getLast?

/-- The representation invariant (spec §3, I1-I5). -/
def Inv (s : SList T) : Prop :=
  ∃ ids, InvW s ids

/-- States reachable from a freshly constructed list by the mutating public
operations (normal, non-throwing returns; the throwing returns are proved to
leave the state unchanged). -/
inductive reach [Inhabited T] [DecidableEq T] : SList T → Prop where
  | ctor : reach s_list
  | push_back_step {s s' : SList T} {v : T} :
      reach s → push_back s v = .ok s' → reach s'
  | push_front_step {s s' : SList T} {v : T} :
      reach s → push_front s v = .ok s' → reach s'
  | erase_step {s s' : SList T} {v : T} :
      reach s → erase s v = .ok s' → reach s'
  | insert_after_step {s s' : SList T} {pos v : T} :
      reach s → insert_after s pos v = .ok s' → reach s'
  | clear_step {s s' : SList T} :
      reach s → clear s = .ok s' → reach s'

/-! ### Chain toolkit -/

theorem chainSeg_nil_eq {s : SList T} {p q : Ptr} (h : chainSeg s p [] q) : q = p := by
  cases h; rfl

theorem chainSeg_cons_iff {s : SList T} {p q : Ptr} {i : Nat} {ids : List Nat} :
    chainSeg s p (i :: ids) q ↔
      p = some i ∧ ∃ nd, s.heap[i]? = some nd ∧ chainSeg s nd.m_next ids q := by
  constructor
  · intro h
    cases h with
    | cons hget htail => exact ⟨rfl, _, hget, htail⟩
  · rintro ⟨rfl, nd, hget, htail⟩
    exact .cons hget htail

theorem chainSeg_mem_get {s : SList T} {p q : Ptr} {ids : List Nat}
    (h : chainSeg s p ids q) : ∀ i ∈ ids, ∃ nd, s.heap[i]? = some nd := by
  induction h with
  | nil => intro i hi; cases hi
  | cons hget _ ih =>
    intro j hj
    rcases List.mem_cons.mp hj with rfl | hj
    · exact ⟨_, hget⟩
    · exact ih j hj

theorem chainSeg_mem_lt {s : SList T} {p q : Ptr} {ids : List Nat}
    (h : chainSeg s p ids q) : ∀ i ∈ ids, i < s.heap.length := by
  intro i hi
  obtain ⟨nd, hnd⟩ := chainSeg_mem_get h i hi
  exact (List.getElem?_eq_some.mp hnd).1

theorem chainSeg_agree {s s' : SList T} {p q : Ptr} {ids : List Nat}
    (h : chainSeg s p ids q) (hag : ∀ i ∈ ids, s'.heap[i]? = s.heap[i]?) :
    chainSeg s' p ids q := by
  induction h with
  | nil => exact .nil _
  | @cons i nd ids q hget htail ih =>
    have hg : s'.heap[i]? = some nd := by
      rw [hag _ (List.mem_cons_self _ _)]; exact hget
    exact .cons hg (ih fun j hj => hag j (List.mem_cons_of_mem _ hj))

theorem chainSeg_append {s : SList T} {p q r : Ptr} {l₁ l₂ : List Nat}
    (h₁ : chainSeg s p l₁ q) (h₂ : chainSeg s q l₂ r) :
    chainSeg s p (l₁ ++ l₂) r := by
  induction h₁ with
  | nil => exact h₂
  | cons hget _ ih => exact .cons hget (ih h₂)

theorem chainSeg_split {s : SList T} {p r : Ptr} {l₁ l₂ : List Nat}
    (h : chainSeg s p (l₁ ++ l₂) r) :
    ∃ q, chainSeg s p l₁ q ∧ chainSeg s q l₂ r := by
  induction l₁ generalizing p with
  | nil => exact ⟨p, .nil p, h⟩
  | cons i l₁ ih =>
    rw [List.cons_append] at h
    rcases chainSeg_cons_iff.mp h with ⟨rfl, nd, hget, htail⟩
    obtain ⟨q, hq₁, hq₂⟩ := ih htail
    exact ⟨q, .cons hget hq₁, hq₂⟩

/-- A list of distinct naturals all below `n` has length at most `n`. -/
theorem nodup_length_le {ids : List Nat} {n : Nat} (hnd : ids.Nodup)
    (hlt : ∀ i ∈ ids, i < n) : ids.length ≤ n := by
  calc ids.length = ids.toFinset.card := (List.toFinset_card_of_nodup hnd).symm
    _ ≤ (Finset.range n).card :=
        Finset.card_le_card fun i hi => Finset.mem_range.mpr (hlt i (List.mem_toFinset.mp hi))
    _ = n := Finset.card_range n

theorem idsFrom_eq {s : SList T} {ids : List Nat} :
    ∀ {p : Ptr} {fuel : Nat}, chainRel s p ids → ids.length ≤ fuel →
    idsFrom s fuel p = some ids := by
  induction ids with
  | nil =>
    intro p fuel h _
    cases h
    cases fuel <;> rfl
  | cons i ids ih =>
    intro p fuel h hfuel
    rcases chainSeg_cons_iff.mp h with ⟨rfl, nd, hget, htail⟩
    cases fuel with
    | zero => simp at hfuel
    | succ fuel =>
      simp [idsFrom, hget, ih htail (Nat.le_of_succ_le_succ hfuel)]

theorem chainFrom_eq [Inhabited T] {s : SList T} {ids : List Nat} :
    ∀ {p : Ptr} {fuel : Nat}, chainRel s p ids → ids.length ≤ fuel →
    chainFrom s fuel p = some (listOf s ids) := by
  induction ids with
  | nil =>
    intro p fuel h _
    cases h
    cases fuel <;> rfl
  | cons i ids ih =>
    intro p fuel h hfuel
    rcases chainSeg_cons_iff.mp h with ⟨rfl, nd, hget, htail⟩
    cases fuel with
    | zero => simp at hfuel
    | succ fuel =>
      simp [chainFrom, hget, ih htail (Nat.le_of_succ_le_succ hfuel), listOf, dataAt]

/-! ### Reads, writes, allocation -/

theorem readNext_some {s : SList T} {i : Nat} {nd : node T}
    (h : s.heap[i]? = some nd) : readNext s (some i) = .ok nd.m_next := by
  simp [readNext, h]

theorem readData_some {s : SList T} {i : Nat} {nd : node T}
    (h : s.heap[i]? = some nd) : readData s (some i) = .ok nd.m_data := by
  simp [readData, h]

theorem writeNext_some {s : SList T} {i : Nat} {nd : node T}
    (h : s.heap[i]? = some nd) (q : Ptr) :
    writeNext s (some i) q =
      .ok { s with heap := s.heap.set i { nd with m_next := q } } := by
  simp [writeNext, h]

/-- Writing a next-link changes no cell's data. -/
theorem dataAt_set [Inhabited T] (s : SList T) {j : Nat} {nd : node T}
    (hj : s.heap[j]? = some nd) (q : Ptr) (i : Nat) :
    dataAt { s with heap := s.heap.set j { nd with m_next := q } } i = dataAt s i := by
  by_cases hij : j = i
  · subst hij
    simp [dataAt, List.getElem?_set_self (List.getElem?_eq_some.mp hj).1, hj]
  · simp [dataAt, List.getElem?_set_ne hij]

/-- Allocation changes no existing cell's data. -/
theorem dataAt_append [Inhabited T] (s : SList T) (x : node T) {i : Nat}
    (h : i < s.heap.length) :
    dataAt { s with heap := s.heap ++ [x] } i = dataAt s i := by
  simp [dataAt, List.getElem?_append_left h]

theorem dataAt_of_get [Inhabited T] {s : SList T} {i : Nat} {nd : node T}
    (h : s.heap[i]? = some nd) : dataAt s i = nd.m_data := by
  simp [dataAt, h]

theorem listOf_congr [Inhabited T] {s s' : SList T} {ids : List Nat}
    (h : ∀ i ∈ ids, dataAt s' i = dataAt s i) : listOf s' ids = listOf s ids :=
  List.map_congr_left h

/-! ### Consequences of the invariant -/

theorem chainRel_ptr {s : SList T} {p : Ptr} {ids : List Nat}
    (h : chainRel s p ids) : p = ids.head? := by
  cases h <;> rfl

theorem InvW.ids_lt {s : SList T} {ids : List Nat} (h : InvW s ids) :
    ∀ i ∈ ids, i < s.heap.length :=
  fun i hi => chainSeg_mem_lt h.hchain i (List.mem_cons_of_mem _ hi)

theorem InvW.zero_lt {s : SList T} {ids : List Nat} (h : InvW s ids) :
    0 < s.heap.length :=
  chainSeg_mem_lt h.hchain 0 (List.mem_cons_self _ _)

theorem InvW.length_lt {s : SList T} {ids : List Nat} (h : InvW s ids) :
    ids.length < s.heap.length := by
  have := nodup_length_le h.hnodup (chainSeg_mem_lt h.hchain)
  simpa using this

theorem InvW.sentinel_get {s : SList T} {ids : List Nat} (h : InvW s ids) :
    ∃ nd, s.heap[0]? = some nd ∧ nd.m_next = ids.head? ∧ chainRel s nd.m_next ids := by
  rcases chainSeg_cons_iff.mp h.hchain with ⟨_, nd, hget, htail⟩
  exact ⟨nd, hget, chainRel_ptr htail, htail⟩

theorem InvW.toList_eq [Inhabited T] {s : SList T} {ids : List Nat} (h : InvW s ids) :
    toList s = some (listOf s ids) := by
  obtain ⟨nd, hget, _, htail⟩ := h.sentinel_get
  have hfuel : ids.length ≤ s.heap.length := Nat.le_of_lt h.length_lt
  simp [toList, h.first_eq, readNext_some hget, chainFrom_eq htail hfuel]

theorem InvW.idsOf_eq {s : SList T} {ids : List Nat} (h : InvW s ids) :
    idsOf s = some ids := by
  obtain ⟨nd, hget, _, htail⟩ := h.sentinel_get
  have hfuel : ids.length ≤ s.heap.length := Nat.le_of_lt h.length_lt
  simp [idsOf, h.first_eq, readNext_some hget, idsFrom_eq htail hfuel]

theorem InvW.empty_iff {s : SList T} {ids : List Nat} (h : InvW s ids) :
    s.empty = true ↔ ids = [] := by
  rw [SList.empty, h.hlast, Option.isNone_iff_eq_none, List.getLast?_eq_none_iff]

theorem InvW.empty_false {s : SList T} {ids : List Nat} (h : InvW s ids)
    (hne : ids ≠ []) : s.empty = false := by
  rcases hb : s.empty with _ | _
  · rfl
  · exact absurd (h.empty_iff.mp hb) hne

theorem InvW.size_eq {s : SList T} {ids : List Nat} (h : InvW s ids) :
    s.size = ids.length := h.hsize

/-- The scan's stopping node (a strict predecessor of the last chain node) is
never `m_last`. -/
theorem pred_ne_last {s : SList T} {cur pre suf : List Nat} {tc nc : Nat}
    (hnd : cur.Nodup) (hdec : cur = pre ++ tc :: nc :: suf)
    (hlast : s.m_last = cur.getLast?) : (some tc : Ptr) ≠ s.m_last := by
  subst hdec
  rw [hlast, List.getLast?_append]
  have h1 : (tc :: nc :: suf).getLast? = (nc :: suf).getLast? :=
    List.getLast?_cons_cons
  obtain ⟨a, ha⟩ : ∃ a, (nc :: suf).getLast? = some a :=
    Option.isSome_iff_exists.mp (List.getLast?_isSome.mpr (by simp))
  have hmem : a ∈ nc :: suf := List.mem_of_mem_getLast? ha
  have htcn : tc ∉ nc :: suf := by
    have : (tc :: nc :: suf).Nodup :=
      (List.nodup_append.mp hnd).2.1
    exact (List.nodup_cons.mp this).1
  have : tc ≠ a := fun hh => htcn (hh ▸ hmem)
  rw [h1, ha]
  simp [Option.or, this]

/-! ### The scan loop -/

/-- When `x` does not occur among the values strictly after the start node, the
scan runs to `m_last` and stops there. -/
theorem scanLoop_notFound [Inhabited T] [DecidableEq T] {s : SList T} {x : T} :
    ∀ {cur : List Nat} {t : Ptr} {fuel : Nat}, chainRel s t cur → cur ≠ [] →
    cur.Nodup → s.m_last = cur.getLast? → cur.length ≤ fuel →
    x ∉ listOf s cur.tail →
    scanLoop s x fuel t = .ok s.m_last := by
  intro cur
  induction cur with
  | nil => intro t fuel _ hne; exact absurd rfl hne
  | cons c0 rest ih =>
    intro t fuel h _ hnd hlast hfuel hx
    rcases chainSeg_cons_iff.mp h with ⟨rfl, nd0, hget0, htail⟩
    cases fuel with
    | zero => simp at hfuel
    | succ fuel =>
      cases rest with
      | nil =>
        have hm : s.m_last = some c0 := by simpa using hlast
        rw [scanLoop, if_pos hm.symm, hm]
      | cons c1 rest' =>
        have hm : s.m_last = (c1 :: rest').getLast? := by
          rw [hlast]; exact List.getLast?_cons_cons
        have hne0 : (some c0 : Ptr) ≠ s.m_last :=
          pred_ne_last hnd (by rw [List.nil_append]) hlast
        rcases chainSeg_cons_iff.mp htail with ⟨hnext, nd1, hget1, htail'⟩
        have hd1 : dataAt s c1 = nd1.m_data := dataAt_of_get hget1
        have hxh : ¬ nd1.m_data = x := by
          intro hh
          apply hx
          rw [List.tail_cons, listOf, List.map_cons, hd1, hh]
          exact List.mem_cons_self _ _
        have hstep : scanLoop s x (fuel + 1) (some c0) = scanLoop s x fuel (some c1) := by
          rw [scanLoop, if_neg hne0, readNext_some hget0, hnext]
          simp [readData_some hget1, hxh]
        rw [hstep]
        refine ih (hnext ▸ htail) (by simp) (List.Nodup.of_cons hnd) hm
          (Nat.le_of_succ_le_succ hfuel) ?_
        intro hmem
        apply hx
        rw [List.tail_cons, listOf, List.map_cons]
        exact List.mem_cons_of_mem _ hmem

/-- When `x` occurs among the values strictly after the start node, the scan
stops at the predecessor `tc` of the first cell `nc` holding `x`. -/
theorem scanLoop_found [Inhabited T] [DecidableEq T] {s : SList T} {x : T} :
    ∀ {cur : List Nat} {t : Ptr} {fuel : Nat}, chainRel s t cur →
    cur.Nodup → s.m_last = cur.getLast? → cur.length ≤ fuel →
    x ∈ listOf s cur.tail →
    ∃ pre tc nc suf, cur = pre ++ tc :: nc :: suf ∧ dataAt s nc = x ∧
      (listOf s cur.tail).indexOf x = pre.length ∧
      scanLoop s x fuel t = .ok (some tc) := by
  intro cur
  induction cur with
  | nil => intro t fuel _ _ _ _ hx; simp [listOf] at hx
  | cons c0 rest ih =>
    intro t fuel h hnd hlast hfuel hx
    rcases chainSeg_cons_iff.mp h with ⟨rfl, nd0, hget0, htail⟩
    cases fuel with
    | zero => simp at hfuel
    | succ fuel =>
      cases rest with
      | nil => simp [listOf] at hx
      | cons c1 rest' =>
        have hm : s.m_last = (c1 :: rest').getLast? := by
          rw [hlast]; exact List.getLast?_cons_cons
        have hne0 : (some c0 : Ptr) ≠ s.m_last :=
          pred_ne_last hnd (by rw [List.nil_append]) hlast
        rcases chainSeg_cons_iff.mp htail with ⟨hnext, nd1, hget1, htail'⟩
        have hd1 : dataAt s c1 = nd1.m_data := dataAt_of_get hget1
        by_cases hval : nd1.m_data = x
        · refine ⟨[], c0, c1, rest', by simp, by rw [hd1, hval], ?_, ?_⟩
          · rw [List.tail_cons, listOf, List.map_cons, hd1, hval]
            simp [List.indexOf_cons_self]
          · rw [scanLoop, if_neg hne0, readNext_some hget0, hnext]
            simp [readData_some hget1, hval]
        · have hx' : x ∈ listOf s rest' := by
            rcases List.mem_cons.mp (by
              rw [List.tail_cons, listOf, List.map_cons] at hx; exact hx) with hh | hh
            · exact absurd (hd1.symm.trans hh.symm) hval
            · exact hh
          obtain ⟨pre', tc, nc, suf, hdec, hnc, hidx, hscan⟩ :=
            ih (hnext ▸ htail) (List.Nodup.of_cons hnd) hm
              (Nat.le_of_succ_le_succ hfuel) (by rw [List.tail_cons]; exact hx')
          refine ⟨c0 :: pre', tc, nc, suf, by rw [List.cons_append, hdec], hnc, ?_, ?_⟩
          · rw [List.tail_cons, listOf, List.map_cons, hd1]
            rw [List.indexOf_cons_ne _ hval]
            rw [List.tail_cons, listOf] at hidx
            rw [hidx]
            simp
          · rw [scanLoop, if_neg hne0, readNext_some hget0, hnext]
            simp only [readData_some hget1]
            simp [hval, hscan]

/-! ### The append-after-a-cell step

`push_back` (both branches), the empty branch of `push_front` and the tail
branch of `insert_after` all run the same statement sequence: allocate a node,
write it as the next-link of a cell `c`, promote it to `m_last` and null its
next-link.  The two lemmas below compute that sequence and re-establish the
invariant when `c` is the last cell of the chain. -/

theorem append_after_eq [Inhabited T] {s : SList T} {c : Nat} {ndc : node T}
    (hc : s.heap[c]? = some ndc) (v : T) :
    (let (p, s₁) := allocNode s v
     match writeNext s₁ (some c) p with
     | .error e => MRes.error e s₁
     | .ok s₂ =>
       match readNext s₂ (some c) with
       | .error e => MRes.error e s₂
       | .ok l =>
         let s₃ : SList T := { s₂ with m_last := l }
         match writeNext s₃ l none with
         | .error e => MRes.error e s₃
         | .ok s₄ => MRes.ok { s₄ with m_size := s₄.m_size + 1 }) =
    MRes.ok
      { heap := ((s.heap ++ [(⟨v, none⟩ : node T)]).set c { ndc with m_next := some s.heap.length }).set
          s.heap.length (⟨v, none⟩ : node T),
        m_first := s.m_first, m_last := some s.heap.length,
        m_size := s.m_size + 1 } := by
  have hlt : c < s.heap.length := (List.getElem?_eq_some.mp hc).1
  have hcN : c ≠ s.heap.length := Nat.ne_of_lt hlt
  have h1 : (s.heap ++ [(⟨v, none⟩ : node T)])[c]? = some ndc := by
    rw [List.getElem?_append_left hlt]; exact hc
  have h2 : ((s.heap ++ [(⟨v, none⟩ : node T)]).set c { ndc with m_next := some s.heap.length })[c]?
      = some { ndc with m_next := some s.heap.length } :=
    List.getElem?_set_self (by simp only [List.length_append, List.length_singleton]; omega)
  have h3 : ((s.heap ++ [(⟨v, none⟩ : node T)]).set c { ndc with m_next := some s.heap.length })[s.heap.length]?
      = some (⟨v, none⟩ : node T) := by
    rw [List.getElem?_set_ne hcN, List.getElem?_concat_length]
  simp only [allocNode, writeNext, readNext, h1, h2, h3]

theorem append_after_invw [Inhabited T] {s : SList T} {ids : List Nat}
    (h : InvW s ids) {c : Nat} {ndc : node T} (hc : s.heap[c]? = some ndc)
    (hcl : (0 :: ids).getLast? = some c) (v : T) :
    InvW
      { heap := ((s.heap ++ [(⟨v, none⟩ : node T)]).set c { ndc with m_next := some s.heap.length }).set
          s.heap.length (⟨v, none⟩ : node T),
        m_first := s.m_first, m_last := some s.heap.length,
        m_size := s.m_size + 1 }
      (ids ++ [s.heap.length]) ∧
    (((s.heap ++ [(⟨v, none⟩ : node T)]).set c { ndc with m_next := some s.heap.length }).set
        s.heap.length (⟨v, none⟩ : node T)).length = s.heap.length + 1 ∧
    listOf
      { heap := ((s.heap ++ [(⟨v, none⟩ : node T)]).set c { ndc with m_next := some s.heap.length }).set
          s.heap.length (⟨v, none⟩ : node T),
        m_first := s.m_first, m_last := some s.heap.length,
        m_size := s.m_size + 1 }
      (ids ++ [s.heap.length]) = listOf s ids ++ [v] := by
  have hlt : c < s.heap.length := (List.getElem?_eq_some.mp hc).1
  have hcN : c ≠ s.heap.length := Nat.ne_of_lt hlt
  set N := s.heap.length with hN
  set nv : node T := ⟨v, none⟩ with hnv
  set s' : SList T :=
    { heap := ((s.heap ++ [nv]).set c { ndc with m_next := some N }).set N nv,
      m_first := s.m_first, m_last := some N, m_size := s.m_size + 1 } with hs'
  -- heap lookups in the new state
  have hlen' : s'.heap.length = N + 1 := by
    simp [hs', List.length_set, List.length_append, hnv]
  have hother : ∀ i, i < N → i ≠ c → s'.heap[i]? = s.heap[i]? := by
    intro i hiN hic
    show (((s.heap ++ [nv]).set c { ndc with m_next := some N }).set N nv)[i]? = _
    rw [List.getElem?_set_ne (Nat.ne_of_lt hiN).symm,
      List.getElem?_set_ne (fun hh => hic hh.symm), List.getElem?_append_left hiN]
  have hatc : s'.heap[c]? = some { ndc with m_next := some N } := by
    show (((s.heap ++ [nv]).set c { ndc with m_next := some N }).set N nv)[c]? = _
    rw [List.getElem?_set_ne (fun hh => hcN hh.symm)]
    exact List.getElem?_set_self (by simp [List.length_append, Nat.lt_succ_of_lt hlt])
  have hatN : s'.heap[N]? = some nv := by
    show (((s.heap ++ [nv]).set c { ndc with m_next := some N }).set N nv)[N]? = _
    exact List.getElem?_set_self (by simp [List.length_set, List.length_append])
  -- decompose the old chain at its last cell
  have hdecomp : (0 :: ids) = (0 :: ids).dropLast ++ [c] := by
    have := List.dropLast_append_getLast? c hcl
    exact this.symm
  have hsplit := h.hchain
  rw [chainRel, hdecomp] at hsplit
  obtain ⟨q, hinit, hlast1⟩ := chainSeg_split hsplit
  have hq : q = some c := by
    rcases chainSeg_cons_iff.mp hlast1 with ⟨hq, _⟩; exact hq.symm ▸ rfl
  subst hq
  have hndc_next : ndc.m_next = none := by
    rcases chainSeg_cons_iff.mp hlast1 with ⟨_, nd', hnd', htl⟩
    rw [hc] at hnd'
    cases hnd'
    exact chainSeg_nil_eq htl ▸ rfl
  -- the initial segment survives in the new heap
  have hinit_mem : ∀ i ∈ (0 :: ids).dropLast, i ≠ c := by
    intro i hi
    have hnd := h.hnodup
    rw [hdecomp, List.nodup_append] at hnd
    exact fun hh => hnd.2.2 hi (hh ▸ List.mem_cons_self _ _)
  have hinit' : chainSeg s' (some 0) ((0 :: ids).dropLast) (some c) :=
    chainSeg_agree hinit (fun i hi =>
      hother i (chainSeg_mem_lt hinit i hi) (hinit_mem i hi))
  -- the two final cells
  have hlast' : chainSeg s' (some c) [c, N] none := by
    refine .cons hatc ?_
    show chainSeg s' (some N) [N] none
    refine .cons hatN ?_
    exact .nil none
  have hchain' : chainRel s' (some 0) (0 :: (ids ++ [N])) := by
    have := chainSeg_append hinit' hlast'
    rw [chainRel]
    have hsh : (0 :: ids).dropLast ++ [c, N] = (0 :: ids) ++ [N] := by
      rw [show [c, N] = [c] ++ [N] from rfl, ← List.append_assoc, ← hdecomp]
    rw [← List.cons_append]
    rw [← hsh]
    exact this
  have hNnotin : N ∉ (0 :: ids) := by
    intro hh
    exact absurd (chainSeg_mem_lt h.hchain N hh) (by omega)
  have hnodup' : (0 :: (ids ++ [N])).Nodup := by
    rw [← List.cons_append, List.nodup_append]
    refine ⟨h.hnodup, List.nodup_singleton _, ?_⟩
    intro i hi hmem
    rw [List.mem_singleton] at hmem
    exact hNnotin (hmem ▸ hi)
  have hdata : ∀ i ∈ ids, dataAt s' i = dataAt s i := by
    intro i hi
    by_cases hic : i = c
    · subst hic
      rw [dataAt_of_get hatc, dataAt_of_get hc]
    · rw [dataAt, hother i (h.ids_lt i hi) hic, dataAt]
  refine ⟨⟨?_, hchain', hnodup', ?_, ?_⟩, ?_, ?_⟩
  · exact h.first_eq
  · show s.m_size + 1 = (ids ++ [N]).length
    rw [h.hsize]; simp
  · show (some N : Ptr) = (ids ++ [N]).getLast?
    rw [List.getLast?_concat]
  · exact hlen'
  · show listOf s' (ids ++ [N]) = listOf s ids ++ [v]
    rw [listOf, listOf, List.map_append, List.map_congr_left hdata]
    have hv : dataAt s' N = v := by rw [dataAt_of_get hatN]
    simp [hv]

/-- `push_back` on an invariant state returns normally and appends `v`; the new
node is the fresh cell `s.heap.length` and becomes the tail. -/
theorem push_back_spec [Inhabited T] {s : SList T} {ids : List Nat}
    (h : InvW s ids) (v : T) :
    ∃ s', push_back s v = .ok s' ∧ InvW s' (ids ++ [s.heap.length]) ∧
      s'.heap.length = s.heap.length + 1 ∧ s'.m_last = some s.heap.length ∧
      listOf s' (ids ++ [s.heap.length]) = listOf s ids ++ [v] := by
  by_cases hids : ids = []
  · subst hids
    obtain ⟨nd, hget0, hnext0, _⟩ := h.sentinel_get
    have hempty : s.empty = true := h.empty_iff.mpr rfl
    have hcl : ((0 : Nat) :: ([] : List Nat)).getLast? = some 0 := by simp
    obtain ⟨hinv, hlen, hlst⟩ := append_after_invw h hget0 hcl v
    refine ⟨_, ?_, hinv, hlen, rfl, hlst⟩
    have heq := append_after_eq hget0 v
    rw [← h.first_eq] at heq
    unfold push_back
    rw [if_pos hempty]
    exact heq
  · obtain ⟨c, hc⟩ : ∃ c, ids.getLast? = some c :=
      Option.isSome_iff_exists.mp (List.getLast?_isSome.mpr hids)
    have hcl : ((0 : Nat) :: ids).getLast? = some c := by
      rw [show ((0 : Nat) :: ids) = [0] ++ ids from rfl, List.getLast?_append, hc]
      rfl
    have hcm : c ∈ ids := List.mem_of_mem_getLast? hc
    obtain ⟨ndc, hgetc⟩ := chainSeg_mem_get h.hchain c (List.mem_cons_of_mem _ hcm)
    have hempty : s.empty = false := h.empty_false hids
    have hlastc : s.m_last = some c := by rw [h.hlast, hc]
    obtain ⟨hinv, hlen, hlst⟩ := append_after_invw h hgetc hcl v
    refine ⟨_, ?_, hinv, hlen, rfl, hlst⟩
    have heq := append_after_eq hgetc v
    rw [← hlastc] at heq
    unfold push_back
    rw [if_neg (by simp [hempty])]
    exact heq

/-- In an invariant state the last real node's next-link is null (spec I3). -/
theorem InvW_last_get {s : SList T} {ids : List Nat} (h : InvW s ids) {c : Nat}
    (hc : ids.getLast? = some c) :
    ∃ ndc, s.heap[c]? = some ndc ∧ ndc.m_next = none := by
  have hcl : ((0 : Nat) :: ids).getLast? = some c := by
    rw [show ((0 : Nat) :: ids) = [0] ++ ids from rfl, List.getLast?_append, hc]
    rfl
  have hdecomp : ((0 : Nat) :: ids) = (0 :: ids).dropLast ++ [c] :=
    (List.dropLast_append_getLast? c hcl).symm
  have hsplit := h.hchain
  rw [chainRel, hdecomp] at hsplit
  obtain ⟨q, hinit, hlast1⟩ := chainSeg_split hsplit
  rcases chainSeg_cons_iff.mp hlast1 with ⟨rfl, ndc, hget, htl⟩
  exact ⟨ndc, hget, by rw [chainSeg_nil_eq htl]⟩

/-- `push_front` on an invariant state returns normally and prepends `v`; the
new node is the fresh cell `s.heap.length`. -/
theorem push_front_spec [Inhabited T] {s : SList T} {ids : List Nat}
    (h : InvW s ids) (v : T) :
    ∃ s', push_front s v = .ok s' ∧ InvW s' (s.heap.length :: ids) ∧
      s'.heap.length = s.heap.length + 1 ∧
      listOf s' (s.heap.length :: ids) = v :: listOf s ids := by
  obtain ⟨nd, hget0, hnext0, htail⟩ := h.sentinel_get
  by_cases hids : ids = []
  · subst hids
    have hempty : s.empty = true := h.empty_iff.mpr rfl
    have hcl : ((0 : Nat) :: ([] : List Nat)).getLast? = some 0 := by simp
    obtain ⟨hinv, hlen, hlst⟩ := append_after_invw h hget0 hcl v
    refine ⟨_, ?_, hinv, hlen, hlst⟩
    have heq := append_after_eq hget0 v
    rw [← h.first_eq] at heq
    unfold push_front
    rw [if_pos hempty]
    exact heq
  · obtain ⟨c, hc⟩ : ∃ c, ids.getLast? = some c :=
      Option.isSome_iff_exists.mp (List.getLast?_isSome.mpr hids)
    obtain ⟨ndc, hgetc, hndc⟩ := InvW_last_get h hc
    have hempty : s.empty = false := h.empty_false hids
    have hlastc : s.m_last = some c := by rw [h.hlast, hc]
    have h0lt : 0 < s.heap.length := h.zero_lt
    have hclt : c < s.heap.length := (List.getElem?_eq_some.mp hgetc).1
    have hc0 : c ≠ 0 := by
      intro hh
      have : (0 : Nat) ∉ ids := (List.nodup_cons.mp h.hnodup).1
      exact this (hh ▸ List.mem_of_mem_getLast? hc)
    set N := s.heap.length with hN
    set nv : node T := ⟨v, none⟩ with hnv
    -- list-level lookup facts driving the statement sequence
    have h1 : (s.heap ++ [nv])[0]? = some nd := by
      rw [List.getElem?_append_left h0lt]; exact hget0
    have h2 : (s.heap ++ [nv])[N]? = some nv := List.getElem?_concat_length _ _
    have h3 : ((s.heap ++ [nv]).set N (⟨v, nd.m_next⟩ : node T))[0]? = some nd := by
      rw [List.getElem?_set_ne (by omega)]; exact h1
    have h4 : (((s.heap ++ [nv]).set N (⟨v, nd.m_next⟩ : node T)).set 0
        (⟨nd.m_data, some N⟩ : node T))[c]? = some ndc := by
      rw [List.getElem?_set_ne (by omega), List.getElem?_set_ne (by omega),
        List.getElem?_append_left hclt]
      exact hgetc
    set s' : SList T :=
      { heap := (((s.heap ++ [nv]).set N (⟨v, nd.m_next⟩ : node T)).set 0
          (⟨nd.m_data, some N⟩ : node T)).set c (⟨ndc.m_data, none⟩ : node T),
        m_first := some 0, m_last := some c, m_size := s.m_size + 1 } with hs'
    have heq : push_front s v = .ok s' := by
      unfold push_front
      rw [if_neg (by simp [hempty])]
      simp only [allocNode, writeNext, readNext, h.first_eq, hlastc, h1, h2, h3, h4, hs']
    -- lookups in the final heap
    have hother : ∀ i, i < N → i ≠ 0 → i ≠ c → s'.heap[i]? = s.heap[i]? := by
      intro i hiN hi0 hic
      show ((((s.heap ++ [nv]).set N _).set 0 _).set c _)[i]? = _
      rw [List.getElem?_set_ne (fun hh => hic hh.symm),
        List.getElem?_set_ne (fun hh => hi0 hh.symm),
        List.getElem?_set_ne (by omega), List.getElem?_append_left hiN]
    have hat0 : s'.heap[0]? = some (⟨nd.m_data, some N⟩ : node T) := by
      show ((((s.heap ++ [nv]).set N _).set 0 _).set c _)[0]? = _
      rw [List.getElem?_set_ne hc0]
      exact List.getElem?_set_self (by simp [List.length_set, List.length_append])
    have hatN : s'.heap[N]? = some (⟨v, nd.m_next⟩ : node T) := by
      show ((((s.heap ++ [nv]).set N _).set 0 _).set c _)[N]? = _
      rw [List.getElem?_set_ne (by omega), List.getElem?_set_ne (by omega)]
      exact List.getElem?_set_self (by simp [List.length_append])
    have hatc : s'.heap[c]? = some (⟨ndc.m_data, none⟩ : node T) := by
      show ((((s.heap ++ [nv]).set N _).set 0 _).set c _)[c]? = _
      exact List.getElem?_set_self (by simp [List.length_set, List.length_append]; omega)
    have hndceq : (⟨ndc.m_data, none⟩ : node T) = ndc := by
      cases ndc with
      | mk d x =>
        simp at hndc
        rw [hndc]
    have hagree : ∀ i ∈ ids, s'.heap[i]? = s.heap[i]? := by
      intro i hi
      by_cases hic : i = c
      · subst hic
        rw [hatc, hndceq, hgetc]
      · have hi0 : i ≠ 0 := by
          intro hh
          exact (List.nodup_cons.mp h.hnodup).1 (hh ▸ hi)
        exact hother i (h.ids_lt i hi) hi0 hic
    have htail' : chainSeg s' nd.m_next ids none := chainSeg_agree htail hagree
    have hchain' : chainRel s' (some 0) (0 :: N :: ids) := by
      refine .cons hat0 ?_
      exact .cons hatN htail'
    have hNnotin : N ∉ (0 : Nat) :: ids := fun hh =>
      absurd (chainSeg_mem_lt h.hchain N hh) (by omega)
    have hnodup' : ((0 : Nat) :: N :: ids).Nodup := by
      rcases List.nodup_cons.mp h.hnodup with ⟨h0n, hidsnd⟩
      refine List.nodup_cons.mpr ⟨?_, List.nodup_cons.mpr ⟨?_, hidsnd⟩⟩
      · intro hh
        rcases List.mem_cons.mp hh with hh | hh
        · exact hNnotin (hh ▸ List.mem_cons_self _ _)
        · exact h0n hh
      · exact fun hh => hNnotin (List.mem_cons_of_mem _ hh)
    have hlast' : s'.m_last = (N :: ids).getLast? := by
      show (some c : Ptr) = _
      cases ids with
      | nil => exact absurd rfl hids
      | cons a as =>
        rw [List.getLast?_cons_cons]
        rw [h.hlast] at hlastc
        exact hlastc.symm.trans (by rw [hc])
    have hdata : ∀ i ∈ ids, dataAt s' i = dataAt s i := by
      intro i hi
      rw [dataAt, hagree i hi, dataAt]
    refine ⟨s', heq, ⟨rfl, hchain', hnodup', ?_, hlast'⟩, ?_, ?_⟩
    · show s.m_size + 1 = (N :: ids).length
      rw [h.hsize]; rfl
    · show s'.heap.length = N + 1
      simp [hs', List.length_set, List.length_append, hnv]
    · show listOf s' (N :: ids) = v :: listOf s ids
      rw [listOf, List.map_cons, List.map_congr_left hdata, dataAt_of_get hatN]
      rfl

/-! ### Helpers for `erase` and `insert_after` -/

theorem cons_getLast?_of_ne {a : Nat} {ids : List Nat} (hne : ids ≠ []) :
    (a :: ids).getLast? = ids.getLast? := by
  cases ids with
  | nil => exact absurd rfl hne
  | cons b bs => exact List.getLast?_cons_cons

theorem eraseIdx_append_plus {α : Type} (l₁ l₂ : List α) (j : Nat) :
    (l₁ ++ l₂).eraseIdx (l₁.length + j) = l₁ ++ l₂.eraseIdx j := by
  induction l₁ with
  | nil => simp
  | cons a l₁ ih =>
    have harith : (a :: l₁).length + j = (l₁.length + j) + 1 := by
      simp [List.length_cons]; omega
    rw [harith, List.cons_append, List.eraseIdx_cons_succ, ih]
    rw [List.cons_append]

theorem map_eraseIdx {α β : Type} (f : α → β) :
    ∀ (l : List α) (j : Nat), (l.eraseIdx j).map f = (l.map f).eraseIdx j := by
  intro l
  induction l with
  | nil => intro j; simp
  | cons a as ih =>
    intro j
    cases j with
    | zero => simp
    | succ j =>
      rw [List.eraseIdx_cons_succ, List.map_cons, List.map_cons,
        List.eraseIdx_cons_succ, ih]

theorem dataAt_heap_congr [Inhabited T] {s s' : SList T} (hh : s'.heap = s.heap)
    (i : Nat) : dataAt s' i = dataAt s i := by
  rw [dataAt, hh, dataAt]

/-- The decomposition of the chain cells after removing the cell at position
`pre.length` of `ids` (position `pre.length + 1` of the full chain). -/
theorem cons_eraseIdx_decomp {ids pre suf : List Nat} {tc nc : Nat}
    (hdec : (0 : Nat) :: ids = pre ++ tc :: nc :: suf) :
    (0 : Nat) :: ids.eraseIdx pre.length = pre ++ tc :: suf := by
  cases pre with
  | nil =>
    injection hdec with h1 h2
    subst h1; subst h2
    rfl
  | cons p0 pre' =>
    rw [List.cons_append] at hdec
    injection hdec with h1 h2
    subst h1; subst h2
    show (0 : Nat) :: (pre' ++ tc :: nc :: suf).eraseIdx (pre'.length + 1) = _
    have : pre'.length + 1 = pre'.length + 1 := rfl
    rw [eraseIdx_append_plus pre' (tc :: nc :: suf) 1]
    rfl

/-- The common relink of `erase`: pointing the predecessor cell `tc` at the
removed node's successor `q` rewires the chain `pre ++ tc :: nc :: suf` into
`pre ++ tc :: suf`. -/
theorem relink_chain {s S' : SList T} {pre suf : List Nat} {tc : Nat}
    {ndt : node T} {q : Ptr}
    (hpre : chainSeg s (some 0) pre (some tc))
    (hgettc : s.heap[tc]? = some ndt)
    (hsuf : chainSeg s q suf none)
    (htc_pre : tc ∉ pre) (htc_suf : tc ∉ suf)
    (hheap' : S'.heap = s.heap.set tc ⟨ndt.m_data, q⟩) :
    chainRel S' (some 0) (pre ++ tc :: suf) := by
  have hlookup : ∀ i, i ≠ tc → S'.heap[i]? = s.heap[i]? := by
    intro i hi
    rw [hheap', List.getElem?_set_ne (fun hh => hi hh.symm)]
  have hattc : S'.heap[tc]? = some ⟨ndt.m_data, q⟩ := by
    rw [hheap']
    exact List.getElem?_set_self (List.getElem?_eq_some.mp hgettc).1
  have hpre' : chainSeg S' (some 0) pre (some tc) :=
    chainSeg_agree hpre (fun i hi => hlookup i (fun hh => htc_pre (hh ▸ hi)))
  have hsuf' : chainSeg S' q suf none :=
    chainSeg_agree hsuf (fun i hi => hlookup i (fun hh => htc_suf (hh ▸ hi)))
  exact chainSeg_append hpre' (.cons hattc hsuf')

/-- `erase` on an invariant state: `EmptyContainer` on the empty list,
`ValueNotFound` when `x` is absent (state unchanged in both cases, carried in
the error result), and on success the cell at the position of the first
occurrence of `x` is unlinked. -/
theorem erase_spec [Inhabited T] [DecidableEq T] {s : SList T} {ids : List Nat}
    (h : InvW s ids) (x : T) :
    (s.empty = true → erase s x = .error .EmptyContainer s) ∧
    (s.empty = false → x ∉ listOf s ids → erase s x = .error .ValueNotFound s) ∧
    (x ∈ listOf s ids →
      ∃ s', erase s x = .ok s' ∧
        InvW s' (ids.eraseIdx ((listOf s ids).indexOf x)) ∧
        s'.heap.length = s.heap.length ∧ s'.m_size + 1 = s.m_size ∧
        listOf s' (ids.eraseIdx ((listOf s ids).indexOf x)) =
          (listOf s ids).eraseIdx ((listOf s ids).indexOf x)) := by
  refine ⟨?_, ?_, ?_⟩
  · intro hempty
    unfold erase
    rw [if_pos hempty]
  · intro hempty hnx
    have hids : ids ≠ [] := by
      intro hh
      rw [h.empty_iff.mpr hh] at hempty
      exact absurd hempty (by simp)
    have hlast0 : s.m_last = ((0 : Nat) :: ids).getLast? := by
      rw [h.hlast, cons_getLast?_of_ne hids]
    have hchain0 : chainRel s s.m_first ((0 : Nat) :: ids) := h.first_eq ▸ h.hchain
    have hfuel : ((0 : Nat) :: ids).length ≤ s.heap.length + 1 := by
      have := h.length_lt
      simp only [List.length_cons]
      omega
    have hscan := scanLoop_notFound hchain0 (by simp) h.hnodup hlast0 hfuel
      (by simpa using hnx)
    unfold erase
    rw [if_neg (by simp [hempty]), hscan]
    simp
  · intro hx
    have hids : ids ≠ [] := by
      intro hh
      rw [hh] at hx
      simp [listOf] at hx
    have hempty : s.empty = false := h.empty_false hids
    have hlast0 : s.m_last = ((0 : Nat) :: ids).getLast? := by
      rw [h.hlast, cons_getLast?_of_ne hids]
    have hchain0 : chainRel s s.m_first ((0 : Nat) :: ids) := h.first_eq ▸ h.hchain
    have hfuel : ((0 : Nat) :: ids).length ≤ s.heap.length + 1 := by
      have := h.length_lt
      simp only [List.length_cons]
      omega
    obtain ⟨pre, tc, nc, suf, hdec, hncval, hidx, hscan⟩ :=
      scanLoop_found hchain0 h.hnodup hlast0 hfuel (by simpa using hx)
    rw [List.tail_cons] at hidx
    have htcne : (some tc : Ptr) ≠ s.m_last := pred_ne_last h.hnodup hdec hlast0
    -- decompose the chain at the found position
    have hch := h.hchain
    rw [chainRel, hdec] at hch
    obtain ⟨q1, hpre, hrest⟩ := chainSeg_split hch
    rcases chainSeg_cons_iff.mp hrest with ⟨hq1, ndt, hgettc, hrest2⟩
    subst hq1
    rcases chainSeg_cons_iff.mp hrest2 with ⟨hndtnext, ndn, hgetnc, hsuf⟩
    -- distinctness facts
    have hndfull : (pre ++ tc :: nc :: suf).Nodup := hdec ▸ h.hnodup
    rw [List.nodup_append] at hndfull
    obtain ⟨hprend, hconsnd, hdisj⟩ := hndfull
    have htc_pre : tc ∉ pre := fun hh => hdisj hh (List.mem_cons_self _ _)
    have htc_nc_suf : tc ∉ nc :: suf := (List.nodup_cons.mp hconsnd).1
    have htc_suf : tc ∉ suf := fun hh => htc_nc_suf (List.mem_cons_of_mem _ hh)
    have hnc_suf : nc ∉ suf := (List.nodup_cons.mp (List.nodup_cons.mp hconsnd).2).1
    have hlt_tc : tc < s.heap.length := (List.getElem?_eq_some.mp hgettc).1
    have h0notin : (0 : Nat) ∉ ids := (List.nodup_cons.mp h.hnodup).1
    have hjlt : pre.length < ids.length := by
      have := congrArg List.length hdec
      simp at this
      omega
    -- the value-list equality, shared by all cases
    have hlistgoal : ∀ S' : SList T,
        S'.heap = s.heap.set tc (⟨ndt.m_data, ndn.m_next⟩ : node T) →
        listOf S' (ids.eraseIdx pre.length) =
          (listOf s ids).eraseIdx pre.length := by
      intro S' hh
      have hdataS : ∀ i, dataAt S' i = dataAt s i := by
        intro i
        have h1 : dataAt S' i =
            dataAt { s with heap := s.heap.set tc { ndt with m_next := ndn.m_next } } i :=
          dataAt_heap_congr (by rw [hh]) i
        rw [h1, dataAt_set s hgettc ndn.m_next i]
      rw [listOf, List.map_congr_left (fun i _ => hdataS i), ← listOf,
        listOf, map_eraseIdx, ← listOf]
    -- the chain of the result state, shared by all cases
    have hchaingoal : ∀ S' : SList T,
        S'.heap = s.heap.set tc (⟨ndt.m_data, ndn.m_next⟩ : node T) →
        chainRel S' (some 0) ((0 : Nat) :: ids.eraseIdx pre.length) := by
      intro S' hh
      rw [cons_eraseIdx_decomp hdec]
      exact relink_chain hpre hgettc hsuf htc_pre htc_suf hh
    have hnodup' : ((0 : Nat) :: ids.eraseIdx pre.length).Nodup := by
      have hsub : (ids.eraseIdx pre.length).Sublist ids := List.eraseIdx_sublist _ _
      refine List.nodup_cons.mpr ⟨?_, hsub.nodup (List.nodup_cons.mp h.hnodup).2⟩
      exact fun hh => h0notin (hsub.subset hh)
    have hsize' : s.m_size - 1 = (ids.eraseIdx pre.length).length := by
      rw [List.length_eraseIdx, if_pos hjlt, h.hsize]
    have hszpos : 1 ≤ s.m_size := by
      rw [h.hsize]
      cases ids with
      | nil => exact absurd rfl hids
      | cons a as => simp
    rw [hidx]
    -- case split on the successor of the removed node
    cases suf with
    | nil =>
      have hqnone : ndn.m_next = none := (chainSeg_nil_eq hsuf).symm
      cases pre with
      | nil =>
        -- removing the only element
        rw [List.nil_append] at hdec
        injection hdec with h1 h2
        subst h1
        have hids2 : ids = [nc] := h2
        -- t = sentinel: the list becomes empty
        have heq : erase s x = .ok
            { heap := s.heap.set 0 (⟨ndt.m_data, none⟩ : node T),
              m_first := s.m_first, m_last := none,
              m_size := s.m_size - 1 } := by
          unfold erase
          rw [if_neg (by simp [hempty])]
          have hget1 : ({ s with heap := s.heap.set 0 (⟨ndt.m_data, none⟩ : node T) } :
              SList T).heap[0]? = some (⟨ndt.m_data, none⟩ : node T) := by
            show (s.heap.set 0 _)[0]? = _
            exact List.getElem?_set_self hlt_tc
          simp only [hscan, if_neg htcne, readNext_some hgettc, hndtnext,
            readNext_some hgetnc, hqnone, writeNext_some hgettc,
            readNext_some hget1, if_pos rfl, if_pos h.first_eq]
          simp [h.first_eq]
        refine ⟨_, heq, ⟨h.first_eq, ?_, hnodup', hsize', ?_⟩, ?_, ?_, ?_⟩
        · exact hchaingoal _ (by rw [hqnone])
        · rw [hids2]
          rfl
        · simp [List.length_set]
        · show s.m_size - 1 + 1 = s.m_size
          omega
        · exact hlistgoal _ (by rw [hqnone])
      | cons p0 pre' =>
        -- removing the last element, predecessor is a real node
        have hp0 : p0 = 0 := by
          rw [List.cons_append] at hdec
          injection hdec with h1 _
          exact h1.symm
        subst hp0
        have hidseq : ids = pre' ++ [tc, nc] := by
          rw [List.cons_append] at hdec
          injection hdec with _ h2
        have htc0 : tc ≠ 0 := by
          intro hh
          exact h0notin (by rw [hidseq, hh]; simp)
        have heq : erase s x = .ok
            { heap := s.heap.set tc (⟨ndt.m_data, none⟩ : node T),
              m_first := s.m_first, m_last := some tc,
              m_size := s.m_size - 1 } := by
          unfold erase
          rw [if_neg (by simp [hempty])]
          have hget1 : ({ s with heap := s.heap.set tc (⟨ndt.m_data, none⟩ : node T) } :
              SList T).heap[tc]? = some (⟨ndt.m_data, none⟩ : node T) := by
            show (s.heap.set tc _)[tc]? = _
            exact List.getElem?_set_self hlt_tc
          have hfne : ¬ (s.m_first = some tc) := by
            rw [h.first_eq]
            intro hh
            injection hh with hh
            exact htc0 hh.symm
          simp only [hscan, if_neg htcne, readNext_some hgettc, hndtnext,
            readNext_some hgetnc, hqnone, writeNext_some hgettc,
            readNext_some hget1, if_pos rfl, if_neg hfne]
          simp [hfne]
        refine ⟨_, heq, ⟨h.first_eq, ?_, hnodup', hsize', ?_⟩, ?_, ?_, ?_⟩
        · exact hchaingoal _ (by rw [hqnone])
        · show (some tc : Ptr) = _
          have : ((0 : Nat) :: ids.eraseIdx (0 :: pre').length) = (0 :: pre') ++ [tc] :=
            cons_eraseIdx_decomp hdec
          rw [List.cons_append] at this
          injection this with _ h2
          rw [h2, List.getLast?_concat]
        · simp [List.length_set]
        · show s.m_size - 1 + 1 = s.m_size
          omega
        · exact hlistgoal _ (by rw [hqnone])
    | cons sh st =>
      -- the removed node has a successor: m_last is unchanged
      have hqsome : ndn.m_next = some sh := chainRel_ptr hsuf
      have hlastne : ¬ (s.m_first = s.m_last) := by
        obtain ⟨c, hc⟩ : ∃ c, ids.getLast? = some c :=
          Option.isSome_iff_exists.mp (List.getLast?_isSome.mpr hids)
        rw [h.first_eq, h.hlast, hc]
        intro hh
        injection hh with hh
        exact h0notin (hh ▸ List.mem_of_mem_getLast? hc)
      have heq : erase s x = .ok
          { heap := s.heap.set tc (⟨ndt.m_data, some sh⟩ : node T),
            m_first := s.m_first, m_last := s.m_last,
            m_size := s.m_size - 1 } := by
        unfold erase
        rw [if_neg (by simp [hempty])]
        have hget1 : ({ s with heap := s.heap.set tc (⟨ndt.m_data, some sh⟩ : node T) } :
            SList T).heap[tc]? = some (⟨ndt.m_data, some sh⟩ : node T) := by
          show (s.heap.set tc _)[tc]? = _
          exact List.getElem?_set_self hlt_tc
        simp only [hscan, if_neg htcne, readNext_some hgettc, hndtnext,
          readNext_some hgetnc, hqsome, writeNext_some hgettc,
          readNext_some hget1, if_neg hlastne]
        simp [hlastne]
      refine ⟨_, heq, ⟨h.first_eq, ?_, hnodup', hsize', ?_⟩, ?_, ?_, ?_⟩
      · exact hchaingoal _ (by rw [hqsome])
      · show s.m_last = _
        -- both chains end with the non-empty suffix sh :: st
        obtain ⟨a, ha⟩ : ∃ a, (sh :: st).getLast? = some a :=
          Option.isSome_iff_exists.mp (List.getLast?_isSome.mpr (by simp))
        have h1 : ((0 : Nat) :: ids).getLast? = some a := by
          rw [hdec, List.getLast?_append, List.getLast?_cons_cons,
            List.getLast?_cons_cons, ha]
          rfl
        have h2 : ((0 : Nat) :: ids.eraseIdx pre.length).getLast? = some a := by
          rw [cons_eraseIdx_decomp hdec, List.getLast?_append,
            List.getLast?_cons_cons, ha]
          rfl
        have h3 : (ids.eraseIdx pre.length).getLast? = some a := by
          have hlen2 : ids.length = pre.length + 2 + st.length := by
            have := congrArg List.length hdec
            simp at this
            omega
          have hne' : ids.eraseIdx pre.length ≠ [] := by
            intro hh
            have hlh := congrArg List.length hh
            rw [List.length_eraseIdx, if_pos hjlt] at hlh
            simp at hlh
            omega
          rw [← cons_getLast?_of_ne hne']
          exact h2
        rw [hlast0, h1, h3]
      · simp [List.length_set]
      · show s.m_size - 1 + 1 = s.m_size
        omega
      · exact hlistgoal _ (by rw [hqsome])

theorem take_append_plus {α : Type} (l₁ l₂ : List α) (k : Nat) :
    (l₁ ++ l₂).take (l₁.length + k) = l₁ ++ l₂.take k := by
  induction l₁ with
  | nil => simp
  | cons a l₁ ih =>
    have harith : (a :: l₁).length + k = (l₁.length + k) + 1 := by
      simp [List.length_cons]; omega
    rw [harith, List.cons_append, List.take_succ_cons, ih, List.cons_append]

theorem drop_append_plus {α : Type} (l₁ l₂ : List α) (k : Nat) :
    (l₁ ++ l₂).drop (l₁.length + k) = l₂.drop k := by
  induction l₁ with
  | nil => simp
  | cons a l₁ ih =>
    have harith : (a :: l₁).length + k = (l₁.length + k) + 1 := by
      simp [List.length_cons]; omega
    rw [harith, List.cons_append, List.drop_succ_cons, ih]

/-- The decomposition of the chain cells after splicing a fresh cell `N` in
right after position `pre.length` of `ids`. -/
theorem cons_insertIdx_decomp {ids pre suf : List Nat} {tc nc : Nat} (N : Nat)
    (hdec : (0 : Nat) :: ids = pre ++ tc :: nc :: suf) :
    (0 : Nat) :: (ids.take (pre.length + 1) ++ N :: ids.drop (pre.length + 1)) =
      pre ++ tc :: nc :: N :: suf := by
  cases pre with
  | nil =>
    injection hdec with h1 h2
    subst h1; subst h2
    rfl
  | cons p0 pre' =>
    rw [List.cons_append] at hdec
    injection hdec with h1 h2
    subst h1; subst h2
    show (0 : Nat) :: ((pre' ++ tc :: nc :: suf).take (pre'.length + 1 + 1) ++
      N :: (pre' ++ tc :: nc :: suf).drop (pre'.length + 1 + 1)) = _
    have h2' : pre'.length + 1 + 1 = pre'.length + 2 := rfl
    rw [h2', take_append_plus pre' (tc :: nc :: suf) 2,
      drop_append_plus pre' (tc :: nc :: suf) 2]
    simp

/-- `insert_after` on an invariant state: `EmptyContainer` on the empty list,
`ValueNotFound` when `pos` is absent (state unchanged in both cases), and on
success a fresh node holding `v` is spliced in right after the first
occurrence of `pos`; when that occurrence was the tail, the fresh node
becomes the tail. -/
theorem insert_after_spec [Inhabited T] [DecidableEq T] {s : SList T}
    {ids : List Nat} (h : InvW s ids) (pos v : T) :
    (s.empty = true → insert_after s pos v = .error .EmptyContainer s) ∧
    (s.empty = false → pos ∉ listOf s ids →
      insert_after s pos v = .error .ValueNotFound s) ∧
    (pos ∈ listOf s ids →
      ∃ s', insert_after s pos v = .ok s' ∧
        InvW s' (ids.take ((listOf s ids).indexOf pos + 1) ++
          s.heap.length :: ids.drop ((listOf s ids).indexOf pos + 1)) ∧
        s'.heap.length = s.heap.length + 1 ∧ s'.m_size = s.m_size + 1 ∧
        ((listOf s ids).indexOf pos + 1 = ids.length →
          s'.m_last = some s.heap.length) ∧
        listOf s' (ids.take ((listOf s ids).indexOf pos + 1) ++
            s.heap.length :: ids.drop ((listOf s ids).indexOf pos + 1)) =
          (listOf s ids).take ((listOf s ids).indexOf pos + 1) ++
            v :: (listOf s ids).drop ((listOf s ids).indexOf pos + 1)) := by
  refine ⟨?_, ?_, ?_⟩
  · intro hempty
    unfold insert_after
    rw [if_pos hempty]
  · intro hempty hnx
    have hids : ids ≠ [] := by
      intro hh
      rw [h.empty_iff.mpr hh] at hempty
      exact absurd hempty (by simp)
    have hlast0 : s.m_last = ((0 : Nat) :: ids).getLast? := by
      rw [h.hlast, cons_getLast?_of_ne hids]
    have hchain0 : chainRel s s.m_first ((0 : Nat) :: ids) := h.first_eq ▸ h.hchain
    have hfuel : ((0 : Nat) :: ids).length ≤ s.heap.length + 1 := by
      have := h.length_lt
      simp only [List.length_cons]
      omega
    have hscan := scanLoop_notFound hchain0 (by simp) h.hnodup hlast0 hfuel
      (by simpa using hnx)
    unfold insert_after
    rw [if_neg (by simp [hempty]), hscan]
    simp
  · intro hx
    have hids : ids ≠ [] := by
      intro hh
      rw [hh] at hx
      simp [listOf] at hx
    have hempty : s.empty = false := h.empty_false hids
    have hlast0 : s.m_last = ((0 : Nat) :: ids).getLast? := by
      rw [h.hlast, cons_getLast?_of_ne hids]
    have hchain0 : chainRel s s.m_first ((0 : Nat) :: ids) := h.first_eq ▸ h.hchain
    have hfuel : ((0 : Nat) :: ids).length ≤ s.heap.length + 1 := by
      have := h.length_lt
      simp only [List.length_cons]
      omega
    obtain ⟨pre, tc, nc, suf, hdec, hncval, hidx, hscan⟩ :=
      scanLoop_found hchain0 h.hnodup hlast0 hfuel (by simpa using hx)
    rw [List.tail_cons] at hidx
    have htcne : (some tc : Ptr) ≠ s.m_last := pred_ne_last h.hnodup hdec hlast0
    have hch := h.hchain
    rw [chainRel, hdec] at hch
    obtain ⟨q1, hpre, hrest⟩ := chainSeg_split hch
    rcases chainSeg_cons_iff.mp hrest with ⟨hq1, ndt, hgettc, hrest2⟩
    subst hq1
    rcases chainSeg_cons_iff.mp hrest2 with ⟨hndtnext, ndn, hgetnc, hsuf⟩
    have hndfull : (pre ++ tc :: nc :: suf).Nodup := hdec ▸ h.hnodup
    rw [List.nodup_append] at hndfull
    obtain ⟨hprend, hconsnd, hdisj⟩ := hndfull
    have htc_nc_suf : tc ∉ nc :: suf := (List.nodup_cons.mp hconsnd).1
    have hnc_suf : nc ∉ suf := (List.nodup_cons.mp (List.nodup_cons.mp hconsnd).2).1
    have hlt_tc : tc < s.heap.length := (List.getElem?_eq_some.mp hgettc).1
    have hlt_nc : nc < s.heap.length := (List.getElem?_eq_some.mp hgetnc).1
    have h0notin : (0 : Nat) ∉ ids := (List.nodup_cons.mp h.hnodup).1
    have hltall : ∀ i ∈ (0 : Nat) :: ids, i < s.heap.length :=
      chainSeg_mem_lt h.hchain
    set N := s.heap.length with hN
    rw [hidx]
    cases suf with
    | nil =>
      -- pos's node is the tail: the append-after-tail branch runs
      have hlen1 : ids.length = pre.length + 1 := by
        have := congrArg List.length hdec
        simp at this
        omega
      have hclnc : ((0 : Nat) :: ids).getLast? = some nc := by
        rw [hdec, List.getLast?_append]
        rfl
      have hlastnc : s.m_last = some nc := by rw [hlast0, hclnc]
      have heqhelp := append_after_eq hgetnc v
      rw [← hlastnc] at heqhelp
      have heq : insert_after s pos v = .ok
          { heap := ((s.heap ++ [(⟨v, none⟩ : node T)]).set nc
              { ndn with m_next := some s.heap.length }).set s.heap.length
              (⟨v, none⟩ : node T),
            m_first := s.m_first, m_last := some s.heap.length,
            m_size := s.m_size + 1 } := by
        unfold insert_after
        rw [if_neg (by simp [hempty])]
        simp only [hscan, if_neg htcne, readNext_some hgettc, hndtnext,
          if_pos hlastnc.symm]
        exact heqhelp
      obtain ⟨hinv, hlen, hlst⟩ := append_after_invw h hgetnc hclnc v
      have hform : ids.take (pre.length + 1) ++ N :: ids.drop (pre.length + 1) =
          ids ++ [N] := by
        rw [← hlen1, List.take_length, List.drop_length]
      have hvlen : (listOf s ids).length = ids.length := by
        rw [listOf, List.length_map]
      have hvtake : (listOf s ids).take (pre.length + 1) = listOf s ids := by
        rw [← hlen1, ← hvlen, List.take_length]
      have hvdrop : (listOf s ids).drop (pre.length + 1) = [] := by
        rw [← hlen1, ← hvlen, List.drop_length]
      rw [hform, hvtake, hvdrop]
      exact ⟨_, heq, hinv, hlen, rfl, fun _ => rfl, hlst⟩
    | cons sh st =>
      -- pos's node has a successor: splice between `nc` and `sh`
      have hqsome : ndn.m_next = some sh := chainRel_ptr hsuf
      have hlen2 : ids.length = pre.length + 2 + st.length := by
        have := congrArg List.length hdec
        simp at this
        omega
      obtain ⟨a, ha⟩ : ∃ a, (sh :: st).getLast? = some a :=
        Option.isSome_iff_exists.mp (List.getLast?_isSome.mpr (by simp))
      have hamem : a ∈ sh :: st := List.mem_of_mem_getLast? ha
      have hlasta : s.m_last = some a := by
        rw [hlast0, hdec, List.getLast?_append, List.getLast?_cons_cons,
          List.getLast?_cons_cons, ha]
        rfl
      have hnclast : ¬ ((some nc : Ptr) = s.m_last) := by
        rw [hlasta]
        intro hh
        injection hh with hh
        exact hnc_suf (hh ▸ hamem)
      have hg1 : (s.heap ++ [(⟨v, none⟩ : node T)])[nc]? = some ndn := by
        rw [List.getElem?_append_left hlt_nc]; exact hgetnc
      have hg2 : ((s.heap ++ [(⟨v, none⟩ : node T)]).set nc
          (⟨ndn.m_data, some N⟩ : node T))[N]? = some (⟨v, none⟩ : node T) := by
        rw [List.getElem?_set_ne (by omega), List.getElem?_concat_length]
      set s' : SList T :=
        { heap := ((s.heap ++ [(⟨v, none⟩ : node T)]).set nc
            (⟨ndn.m_data, some N⟩ : node T)).set N (⟨v, some sh⟩ : node T),
          m_first := s.m_first, m_last := s.m_last,
          m_size := s.m_size + 1 } with hs'
      have heq : insert_after s pos v = .ok s' := by
        unfold insert_after
        rw [if_neg (by simp [hempty])]
        simp only [hscan, if_neg htcne, allocNode, readNext, writeNext, hgettc,
          hndtnext, if_neg hnclast, hg1, hg2, hqsome, hs']
      -- lookups in the new heap
      have hother : ∀ i, i < N → i ≠ nc → s'.heap[i]? = s.heap[i]? := by
        intro i hiN hinc
        show (((s.heap ++ [(⟨v, none⟩ : node T)]).set nc _).set N _)[i]? = _
        rw [List.getElem?_set_ne (by omega),
          List.getElem?_set_ne (fun hh => hinc hh.symm),
          List.getElem?_append_left hiN]
      have hatnc : s'.heap[nc]? = some (⟨ndn.m_data, some N⟩ : node T) := by
        show (((s.heap ++ [(⟨v, none⟩ : node T)]).set nc _).set N _)[nc]? = _
        rw [List.getElem?_set_ne (by omega)]
        exact List.getElem?_set_self (by simp [List.length_append]; omega)
      have hatN : s'.heap[N]? = some (⟨v, some sh⟩ : node T) := by
        show (((s.heap ++ [(⟨v, none⟩ : node T)]).set nc _).set N _)[N]? = _
        exact List.getElem?_set_self (by simp [List.length_set, List.length_append])
      -- chain of the new state
      have hpre' : chainSeg s' (some 0) pre (some tc) :=
        chainSeg_agree hpre (fun i hi => hother i
          (hltall i (by rw [hdec]; exact List.mem_append_left _ hi))
          (fun hh => hdisj hi (by rw [hh]; simp)))
      have hgettc' : s'.heap[tc]? = some ndt := by
        rw [hother tc hlt_tc (fun hh => (List.nodup_cons.mp hconsnd).1
          (hh ▸ List.mem_cons_self _ _))]
        exact hgettc
      have hsufagree : chainSeg s' (some sh) (sh :: st) none := by
        refine chainSeg_agree (hqsome ▸ hsuf) (fun i hi => hother i ?_ ?_)
        · exact hltall i (by rw [hdec]; refine List.mem_append_right _ ?_; simp [hi])
        · exact fun hh => hnc_suf (hh ▸ hi)
      have hchain' : chainRel s' (some 0)
          ((0 : Nat) :: (ids.take (pre.length + 1) ++ N :: ids.drop (pre.length + 1))) := by
        rw [cons_insertIdx_decomp N hdec]
        refine chainSeg_append hpre' ?_
        refine .cons hgettc' ?_
        rw [hndtnext]
        refine .cons hatnc ?_
        show chainSeg s' (some N) (N :: sh :: st) none
        exact .cons hatN hsufagree
      -- distinctness
      have hNnotinC : N ∉ (0 : Nat) :: ids := fun hh => absurd (hltall N hh) (by omega)
      have hnodup' :
          ((0 : Nat) :: (ids.take (pre.length + 1) ++ N :: ids.drop (pre.length + 1))).Nodup := by
        rw [cons_insertIdx_decomp N hdec]
        have hrw := hdec.symm
        have hnd := h.hnodup
        -- insert N into the middle of the known-nodup list
        rw [List.nodup_append]
        refine ⟨hprend, ?_, ?_⟩
        · refine List.nodup_cons.mpr ⟨?_, List.nodup_cons.mpr ⟨?_, List.nodup_cons.mpr ⟨?_, ?_⟩⟩⟩
          · intro hh
            rcases List.mem_cons.mp hh with hh | hh
            · exact htc_nc_suf (hh ▸ List.mem_cons_self _ _)
            · rcases List.mem_cons.mp hh with hh | hh
              · exact absurd hh (by omega)
              · exact htc_nc_suf (List.mem_cons_of_mem _ hh)
          · intro hh
            rcases List.mem_cons.mp hh with hh | hh
            · exact absurd hh (by omega)
            · exact hnc_suf hh
          · intro hh
            have hNin : N ∈ (0 : Nat) :: ids := by
              rw [hdec]
              exact List.mem_append_right _
                (List.mem_cons_of_mem _ (List.mem_cons_of_mem _ hh))
            exact hNnotinC hNin
          · exact (List.nodup_cons.mp (List.nodup_cons.mp hconsnd).2).2
        · intro i hi hmem
          have himem : i ∈ tc :: nc :: sh :: st := by
            rcases List.mem_cons.mp hmem with hh | hh
            · exact hh ▸ List.mem_cons_self _ _
            · rcases List.mem_cons.mp hh with hh | hh
              · exact hh ▸ List.mem_cons_of_mem _ (List.mem_cons_self _ _)
              · rcases List.mem_cons.mp hh with hh | hh
                · exfalso
                  have hiN : i < N :=
                    hltall i (by rw [hdec]; exact List.mem_append_left _ hi)
                  omega
                · exact List.mem_cons_of_mem _ (List.mem_cons_of_mem _ hh)
          exact hdisj hi himem
      have hlast' : s'.m_last =
          (ids.take (pre.length + 1) ++ N :: ids.drop (pre.length + 1)).getLast? := by
      -- both lists end with the non-empty suffix sh :: st
        have h2 : ((0 : Nat) :: (ids.take (pre.length + 1) ++ N :: ids.drop (pre.length + 1))).getLast?
            = some a := by
          rw [cons_insertIdx_decomp N hdec, List.getLast?_append,
            List.getLast?_cons_cons, List.getLast?_cons_cons,
            List.getLast?_cons_cons, ha]
          rfl
        have hne' : ids.take (pre.length + 1) ++ N :: ids.drop (pre.length + 1) ≠ [] := by
          simp
        rw [← cons_getLast?_of_ne hne'] at *
        show s.m_last = _
        rw [hlasta, h2]
      have hdata : ∀ i, i < N → dataAt s' i = dataAt s i := by
        intro i hiN
        by_cases hinc : i = nc
        · subst hinc
          rw [dataAt_of_get hatnc, dataAt_of_get hgetnc]
        · rw [dataAt, hother i hiN hinc, dataAt]
      refine ⟨s', heq, ⟨h.first_eq, hchain', hnodup', ?_, hlast'⟩, ?_, rfl, ?_, ?_⟩
      · show s.m_size + 1 = _
        rw [h.hsize]
        simp [List.length_take, List.length_drop]
        omega
      · show s'.heap.length = N + 1
        simp [hs', List.length_set, List.length_append]
      · intro hh
        exfalso
        omega
      · show listOf s' _ = _
        rw [listOf, List.map_append, List.map_cons, dataAt_of_get hatN]
        have htk : List.map (dataAt s') (ids.take (pre.length + 1)) =
            (listOf s ids).take (pre.length + 1) := by
          rw [List.map_congr_left (fun i hi => hdata i
            (hltall i (List.mem_cons_of_mem _ (List.mem_of_mem_take hi)))),
            listOf, List.map_take]
        have hdr : List.map (dataAt s') (ids.drop (pre.length + 1)) =
            (listOf s ids).drop (pre.length + 1) := by
          rw [List.map_congr_left (fun i hi => hdata i
            (hltall i (List.mem_cons_of_mem _ (List.mem_of_mem_drop hi)))),
            listOf, List.map_drop]
        rw [htk, hdr]

/-- The loop of `clear` pops the head node until the chain is just the
sentinel; the allocation table length and the `m_first`/`m_last`/`m_size`
fields are untouched by the loop itself. -/
theorem clearLoop_spec [Inhabited T] {ids : List Nat} :
    ∀ {s : SList T} {fuel : Nat}, s.m_first = some 0 →
    chainSeg s (some 0) ((0 : Nat) :: ids) none → ((0 : Nat) :: ids).Nodup →
    ids.length + 1 ≤ fuel →
    ∃ s', clearLoop fuel s = .ok s' ∧ s'.heap.length = s.heap.length ∧
      s'.m_first = s.m_first ∧ s'.m_last = s.m_last ∧ s'.m_size = s.m_size ∧
      (∀ i, dataAt s' i = dataAt s i) ∧
      chainSeg s' (some 0) [(0 : Nat)] none := by
  induction ids with
  | nil =>
    intro s fuel hfirst hchain hnodup hfuel
    cases fuel with
    | zero => exact absurd hfuel (by omega)
    | succ fuel =>
      rcases chainSeg_cons_iff.mp hchain with ⟨_, nd0, hget0, htail⟩
      have hnext0 : nd0.m_next = none := (chainSeg_nil_eq htail).symm
      refine ⟨s, ?_, rfl, rfl, rfl, rfl, fun i => rfl, hchain⟩
      simp [clearLoop, readNext, hfirst, hget0, hnext0]
  | cons a rest ih =>
    intro s fuel hfirst hchain hnodup hfuel
    cases fuel with
    | zero => exact absurd hfuel (by omega)
    | succ fuel =>
      rcases chainSeg_cons_iff.mp hchain with ⟨_, nd0, hget0, htail⟩
      have hnexta : nd0.m_next = some a := chainRel_ptr htail
      rcases chainSeg_cons_iff.mp htail with ⟨_, nda, hgeta, htaila⟩
      have h0lt : 0 < s.heap.length := (List.getElem?_eq_some.mp hget0).1
      set s₁ : SList T :=
        { s with heap := s.heap.set 0 { nd0 with m_next := nda.m_next } } with hs₁
      have hstep : clearLoop (fuel + 1) s = clearLoop fuel s₁ := by
        simp [clearLoop, readNext, writeNext, hfirst, hget0, hnexta, hgeta, hs₁]
      have hget0' : s₁.heap[0]? = some { nd0 with m_next := nda.m_next } := by
        show (s.heap.set 0 _)[0]? = _
        exact List.getElem?_set_self h0lt
      have h0notin : (0 : Nat) ∉ a :: rest := (List.nodup_cons.mp hnodup).1
      have hchain₁ : chainSeg s₁ (some 0) ((0 : Nat) :: rest) none := by
        refine .cons hget0' ?_
        show chainSeg s₁ nda.m_next rest none
        refine chainSeg_agree htaila (fun i hi => ?_)
        show (s.heap.set 0 _)[i]? = _
        refine List.getElem?_set_ne (fun hh => ?_)
        rw [← hh] at hi
        exact h0notin (List.mem_cons_of_mem _ hi)
      have hnodup₁ : ((0 : Nat) :: rest).Nodup := by
        rcases List.nodup_cons.mp hnodup with ⟨h0n, hrest⟩
        exact List.nodup_cons.mpr ⟨fun hh => h0n (List.mem_cons_of_mem _ hh),
          (List.nodup_cons.mp hrest).2⟩
      obtain ⟨s', hloop, hlen, hfst, hlst, hsz, hdata, hchain'⟩ :=
        @ih s₁ fuel hfirst hchain₁ hnodup₁ (by simp at hfuel; omega)
      refine ⟨s', by rw [hstep]; exact hloop, ?_, hfst, hlst, hsz, ?_, hchain'⟩
      · rw [hlen]
        show (s.heap.set 0 _).length = _
        exact List.length_set _ _ _
      · intro i
        rw [hdata i]
        exact dataAt_set s hget0 nda.m_next i

/-- `clear` on an invariant state: the list becomes empty, the sentinel is
retained, and a second `clear` returns the state unchanged. -/
theorem clear_spec [Inhabited T] {s : SList T} {ids : List Nat} (h : InvW s ids) :
    ∃ s', clear s = .ok s' ∧ InvW s' [] ∧ s'.heap.length = s.heap.length ∧
      s'.m_first = s.m_first ∧ clear s' = .ok s' := by
  have hfuel : ids.length + 1 ≤ s.heap.length + 1 := by
    have := h.length_lt; omega
  obtain ⟨s₁, hloop, hlen, hfst, hlst, hsz, hdata, hchain'⟩ :=
    clearLoop_spec h.first_eq h.hchain h.hnodup hfuel
  refine ⟨{ s₁ with m_last := none, m_size := 0 }, ?_, ?_, hlen, hfst, ?_⟩
  · unfold clear
    rw [hloop]
  · refine ⟨?_, ?_, by simp, rfl, rfl⟩
    · show s₁.m_first = some 0
      rw [hfst, h.first_eq]
    · show chainSeg _ (some 0) ((0 : Nat) :: []) none
      exact chainSeg_agree hchain' (fun i _ => rfl)
  · -- idempotence: the loop stops immediately on the cleared state
    rcases chainSeg_cons_iff.mp hchain' with ⟨_, nd0, hget0, htail⟩
    have hnext0 : nd0.m_next = none := (chainSeg_nil_eq htail).symm
    have hfst2 : s₁.m_first = some 0 := by
      rw [hfst, h.first_eq]
    unfold clear
    have hloop' : clearLoop (({ s₁ with m_last := none, m_size := 0 } : SList T).heap.length + 1)
        ({ s₁ with m_last := none, m_size := 0 } : SList T) =
        .ok { s₁ with m_last := none, m_size := 0 } := by
      simp [clearLoop, readNext, hfst2, hget0, hnext0]
    rw [hloop']

/-- `find` on an invariant state: `EmptyContainer` on the empty list, the null
pointer when `x` is absent, and a pointer to the cell of the first occurrence
of `x` otherwise. -/
theorem find_spec [Inhabited T] [DecidableEq T] {s : SList T} {ids : List Nat}
    (h : InvW s ids) (x : T) :
    (s.empty = true → find s x = .error .EmptyContainer) ∧
    (s.empty = false → x ∉ listOf s ids → find s x = .ok none) ∧
    (x ∈ listOf s ids →
      ∃ i, find s x = .ok (some i) ∧
        ids[(listOf s ids).indexOf x]? = some i ∧ dataAt? s i = some x) := by
  refine ⟨?_, ?_, ?_⟩
  · intro hempty
    unfold find
    rw [if_pos hempty]
  · intro hempty hnx
    have hids : ids ≠ [] := by
      intro hh
      rw [h.empty_iff.mpr hh] at hempty
      exact absurd hempty (by simp)
    have hlast0 : s.m_last = ((0 : Nat) :: ids).getLast? := by
      rw [h.hlast, cons_getLast?_of_ne hids]
    have hchain0 : chainRel s s.m_first ((0 : Nat) :: ids) := h.first_eq ▸ h.hchain
    have hfuel : ((0 : Nat) :: ids).length ≤ s.heap.length + 1 := by
      have := h.length_lt
      simp only [List.length_cons]
      omega
    have hscan := scanLoop_notFound hchain0 (by simp) h.hnodup hlast0 hfuel
      (by simpa using hnx)
    unfold find
    rw [if_neg (by simp [hempty]), hscan]
    simp
  · intro hx
    have hids : ids ≠ [] := by
      intro hh
      rw [hh] at hx
      simp [listOf] at hx
    have hempty : s.empty = false := h.empty_false hids
    have hlast0 : s.m_last = ((0 : Nat) :: ids).getLast? := by
      rw [h.hlast, cons_getLast?_of_ne hids]
    have hchain0 : chainRel s s.m_first ((0 : Nat) :: ids) := h.first_eq ▸ h.hchain
    have hfuel : ((0 : Nat) :: ids).length ≤ s.heap.length + 1 := by
      have := h.length_lt
      simp only [List.length_cons]
      omega
    obtain ⟨pre, tc, nc, suf, hdec, hncval, hidx, hscan⟩ :=
      scanLoop_found hchain0 h.hnodup hlast0 hfuel (by simpa using hx)
    rw [List.tail_cons] at hidx
    have htcne : (some tc : Ptr) ≠ s.m_last := pred_ne_last h.hnodup hdec hlast0
    have hch := h.hchain
    rw [chainRel, hdec] at hch
    obtain ⟨q1, hpre, hrest⟩ := chainSeg_split hch
    rcases chainSeg_cons_iff.mp hrest with ⟨hq1, ndt, hgettc, hrest2⟩
    subst hq1
    rcases chainSeg_cons_iff.mp hrest2 with ⟨hndtnext, ndn, hgetnc, hsuf⟩
    refine ⟨nc, ?_, ?_, ?_⟩
    · unfold find
      rw [if_neg (by simp [hempty])]
      simp only [hscan, if_neg htcne, readNext_some hgettc, hndtnext]
    · rw [hidx]
      have : ((0 : Nat) :: ids)[pre.length + 1]? = some nc := by
        rw [hdec, List.getElem?_append_right (by omega)]
        simp
      simpa using this
    · have hmd : ndn.m_data = x := by
        rw [← dataAt_of_get hgetnc]
        exact hncval
      rw [dataAt?, hgetnc, Option.map_some', hmd]

/-! ### Reachability: every state produced by the public API is invariant -/

/-- The freshly constructed list satisfies the invariant with no real nodes. -/
theorem s_list_invw [Inhabited T] : InvW (s_list : SList T) [] := by
  refine ⟨rfl, ?_, by simp, rfl, rfl⟩
  refine chainSeg.cons (show (s_list : SList T).heap[0]? = some ⟨default, none⟩ from rfl) ?_
  exact .nil none

/-- The `initializer_list` constructor loop preserves the invariant and appends
all pushed values. -/
theorem pushAll_spec [Inhabited T] {vs : List T} :
    ∀ {s : SList T} {ids : List Nat}, InvW s ids →
    ∃ s' ids', pushAll s vs = .ok s' ∧ InvW s' ids' ∧
      listOf s' ids' = listOf s ids ++ vs := by
  induction vs with
  | nil =>
    intro s ids h
    exact ⟨s, ids, rfl, h, by simp⟩
  | cons a as ih =>
    intro s ids h
    obtain ⟨s₁, hok, hinv₁, _, _, hlst₁⟩ := push_back_spec h a
    obtain ⟨s', ids', hok', hinv', hlst'⟩ := ih hinv₁
    refine ⟨s', ids', ?_, hinv', ?_⟩
    · show pushAll s (a :: as) = _
      simp [pushAll, hok, hok']
    · rw [hlst', hlst₁]
      simp

theorem reach_pushAll [Inhabited T] [DecidableEq T] {vs : List T} :
    ∀ {s s' : SList T}, reach s → pushAll s vs = .ok s' → reach s' := by
  induction vs with
  | nil =>
    intro s s' hr hok
    simp only [pushAll] at hok
    cases hok
    exact hr
  | cons a as ih =>
    intro s s' hr hok
    simp only [pushAll] at hok
    cases hpb : push_back s a with
    | ok s₁ =>
      rw [hpb] at hok
      exact ih (reach.push_back_step hr hpb) hok
    | error e s₁ =>
      rw [hpb] at hok
      cases hok

/-- The list built by the `initializer_list` constructor is reachable and holds
exactly the given values. -/
theorem ofList_spec [Inhabited T] [DecidableEq T] (vs : List T) :
    reach (ofList vs : SList T) ∧
    ∃ ids, InvW (ofList vs : SList T) ids ∧ listOf (ofList vs : SList T) ids = vs := by
  obtain ⟨s', ids', hok, hinv, hlst⟩ :=
    @pushAll_spec T _ vs _ _ (s_list_invw : InvW (s_list : SList T) [])
  have hof : (ofList vs : SList T) = s' := by
    unfold ofList
    rw [hok]
  constructor
  · rw [hof]
    exact reach_pushAll reach.ctor hok
  · rw [hof]
    refine ⟨ids', hinv, ?_⟩
    rw [hlst]
    simp [listOf]

/-- Every reachable state satisfies the representation invariant (spec §3). -/
theorem reach_inv [Inhabited T] [DecidableEq T] {s : SList T} (h : reach s) :
    Inv s := by
  induction h with
  | ctor => exact ⟨[], s_list_invw⟩
  | push_back_step hr hok ih =>
    obtain ⟨ids, hw⟩ := ih
    obtain ⟨s'', hok', hinv, _⟩ := push_back_spec hw _
    rw [hok] at hok'
    cases hok'
    exact ⟨_, hinv⟩
  | push_front_step hr hok ih =>
    obtain ⟨ids, hw⟩ := ih
    obtain ⟨s'', hok', hinv, _⟩ := push_front_spec hw _
    rw [hok] at hok'
    cases hok'
    exact ⟨_, hinv⟩
  | erase_step hr hok ih =>
    obtain ⟨ids, hw⟩ := ih
    obtain ⟨h1, h2, h3⟩ := erase_spec hw (by assumption)
    rename_i s₀ s' v
    by_cases hx : v ∈ listOf s₀ ids
    · obtain ⟨s'', hok', hinv, _⟩ := h3 hx
      rw [hok] at hok'
      cases hok'
      exact ⟨_, hinv⟩
    · rcases hb : s₀.empty with _ | _
      · rw [h2 hb hx] at hok
        cases hok
      · rw [h1 hb] at hok
        cases hok
  | insert_after_step hr hok ih =>
    obtain ⟨ids, hw⟩ := ih
    rename_i s₀ s' pos v
    obtain ⟨h1, h2, h3⟩ := insert_after_spec hw pos v
    by_cases hx : pos ∈ listOf s₀ ids
    · obtain ⟨s'', hok', hinv, _⟩ := h3 hx
      rw [hok] at hok'
      cases hok'
      exact ⟨_, hinv⟩
    · rcases hb : s₀.empty with _ | _
      · rw [h2 hb hx] at hok
        cases hok
      · rw [h1 hb] at hok
        cases hok
  | clear_step hr hok ih =>
    obtain ⟨ids, hw⟩ := ih
    obtain ⟨s'', hok', hinv, _⟩ := clear_spec hw
    rw [hok] at hok'
    cases hok'
    exact ⟨_, hinv⟩

/-- A throwing `erase` leaves the state at the throw point equal to the input
state. -/
theorem erase_error_state [Inhabited T] [DecidableEq T] {s s' : SList T} {x : T}
    {e : Err} (hInv : Inv s) (herr : erase s x = .error e s') : s' = s := by
  obtain ⟨ids, h⟩ := hInv
  obtain ⟨h1, h2, h3⟩ := erase_spec h x
  by_cases hx : x ∈ listOf s ids
  · obtain ⟨s'', hok, _⟩ := h3 hx
    rw [hok] at herr
    cases herr
  · rcases hb : s.empty with _ | _
    · rw [h2 hb hx] at herr
      injection herr with _ hs
      exact hs.symm
    · rw [h1 hb] at herr
      injection herr with _ hs
      exact hs.symm

/-- A throwing `insert_after` leaves the state at the throw point equal to the
input state. -/
theorem insert_after_error_state [Inhabited T] [DecidableEq T] {s s' : SList T}
    {pos v : T} {e : Err} (hInv : Inv s)
    (herr : insert_after s pos v = .error e s') : s' = s := by
  obtain ⟨ids, h⟩ := hInv
  obtain ⟨h1, h2, h3⟩ := insert_after_spec h pos v
  by_cases hx : pos ∈ listOf s ids
  · obtain ⟨s'', hok, _⟩ := h3 hx
    rw [hok] at herr
    cases herr
  · rcases hb : s.empty with _ | _
    · rw [h2 hb hx] at herr
      injection herr with _ hs
      exact hs.symm
    · rw [h1 hb] at herr
      injection herr with _ hs
      exact hs.symm

/-- `front` and `back` on a non-empty invariant state read the first and the
last element of the traversal. -/
theorem front_back_of_invw [Inhabited T] {s : SList T} {ids : List Nat}
    (h : InvW s ids) (hne : ids ≠ []) :
    ∃ a b, (listOf s ids).head? = some a ∧ front s = .ok a ∧
      (listOf s ids).getLast? = some b ∧ back s = .ok b := by
  have hempty : s.empty = false := h.empty_false hne
  obtain ⟨nd, hget0, hnext0, htail⟩ := h.sentinel_get
  cases ids with
  | nil => exact absurd rfl hne
  | cons i0 irest =>
    rcases chainSeg_cons_iff.mp htail with ⟨_, nd0, hgeti0, _⟩
    obtain ⟨c, hc⟩ : ∃ c, (i0 :: irest).getLast? = some c :=
      Option.isSome_iff_exists.mp (List.getLast?_isSome.mpr hne)
    have hcm : c ∈ i0 :: irest := List.mem_of_mem_getLast? hc
    obtain ⟨ndc, hgetc⟩ := chainSeg_mem_get h.hchain c (List.mem_cons_of_mem _ hcm)
    refine ⟨nd0.m_data, ndc.m_data, ?_, ?_, ?_, ?_⟩
    · rw [listOf, List.head?_map]
      simp [dataAt_of_get hgeti0]
    · unfold front
      rw [if_neg (by simp [hempty]), h.first_eq, readNext_some hget0, hnext0]
      show readData s (some i0) = _
      rw [readData_some hgeti0]
    · rw [listOf, List.getLast?_map, hc]
      simp [dataAt_of_get hgetc]
    · unfold back
      rw [if_neg (by simp [hempty]), h.hlast, hc]
      exact readData_some hgetc

/-! ### The claims -/

/-- C1, counterexample: on the empty list `end()` does not succeed — it reads
`m_last->next()` through the null `m_last` and node::next throws
(`InvalidNodeAccess`), so the claim "end() succeeds for every list, including
the empty list" is false at the freshly constructed list. -/
theorem C1_end_empty_counterexample :
    end_ (s_list : SList Int) = .error .InvalidNodeAccess := rfl

/-- C1 (amended): for every reachable NON-empty list, end() succeeds without
raising and returns the iterator holding the tail's next-link, the "none"
end-of-sequence sentinel, and begin() (an iterator at a real cell) differs
from it; on the empty list end() instead raises InvalidNodeAccess, so
begin() == end() cannot even be evaluated there. -/
theorem C1_end_amended {T : Type} [Inhabited T] [DecidableEq T] {s : SList T}
    (h : reach s) :
    (s.empty = false → end_ s = .ok ⟨none⟩ ∧ ∃ p : Nat, begin s = .ok ⟨some p⟩) ∧
    (s.empty = true → end_ s = .error .InvalidNodeAccess) := by
  obtain ⟨ids, hw⟩ := reach_inv h
  constructor
  · intro hne
    have hids : ids ≠ [] := by
      intro hh
      rw [hw.empty_iff.mpr hh] at hne
      exact absurd hne (by simp)
    obtain ⟨c, hc⟩ : ∃ c, ids.getLast? = some c :=
      Option.isSome_iff_exists.mp (List.getLast?_isSome.mpr hids)
    obtain ⟨ndc, hgetc, hndc⟩ := InvW_last_get hw hc
    constructor
    · unfold end_
      rw [hw.hlast, hc, readNext_some hgetc, hndc]
    · obtain ⟨nd, hget0, hnext0, _⟩ := hw.sentinel_get
      cases ids with
      | nil => exact absurd rfl hids
      | cons i0 irest =>
        refine ⟨i0, ?_⟩
        unfold begin
        rw [hw.first_eq, readNext_some hget0, hnext0]
        rfl
  · intro he
    have hlast : s.m_last = none := by
      rw [hw.hlast, List.getLast?_eq_none_iff]
      exact hw.empty_iff.mp he
    unfold end_
    rw [hlast]
    rfl

theorem C1_end_amended_witness :
    reach (ofList [(1 : Int)]) ∧
    (((ofList [(1 : Int)] : SList Int).empty = false →
        end_ (ofList [(1 : Int)]) = .ok ⟨none⟩ ∧
        ∃ p : Nat, begin (ofList [(1 : Int)]) = .ok ⟨some p⟩) ∧
      ((ofList [(1 : Int)] : SList Int).empty = true →
        end_ (ofList [(1 : Int)]) = .error .InvalidNodeAccess)) :=
  ⟨(ofList_spec [(1 : Int)]).1, C1_end_amended (ofList_spec [(1 : Int)]).1⟩

/-- C2: on a reachable list whose traversal contains `x` exactly once,
erase(x) returns normally, decrements size() by one and the traversal
afterwards is the one before with the first occurrence of `x` removed; on a
non-empty list without `x` it raises ValueNotFound, and on the empty list it
raises EmptyContainer (in both error cases the state is unchanged). -/
theorem C2_erase_correct {T : Type} [Inhabited T] [DecidableEq T] {s : SList T}
    (h : reach s) (l : List T) (hl : toList s = some l) (x : T) :
    (l.count x = 1 → ∃ s', erase s x = .ok s' ∧ s'.size + 1 = s.size ∧
      toList s' = some (l.erase x)) ∧
    (l ≠ [] → x ∉ l → erase s x = .error .ValueNotFound s) ∧
    (l = [] → erase s x = .error .EmptyContainer s) := by
  obtain ⟨ids, hw⟩ := reach_inv h
  have hleq : l = listOf s ids := by
    have h2 := hw.toList_eq
    rw [hl] at h2
    exact Option.some.inj h2
  subst hleq
  obtain ⟨h1, h2, h3⟩ := erase_spec hw x
  refine ⟨?_, ?_, ?_⟩
  · intro hcount
    have hx : x ∈ listOf s ids := List.count_pos_iff.mp (by omega)
    obtain ⟨s', hok, hinv', _, hsz, hlst⟩ := h3 hx
    refine ⟨s', hok, hsz, ?_⟩
    rw [hinv'.toList_eq, hlst, List.eraseIdx_indexOf_eq_erase]
  · intro hne hnx
    have hemp : s.empty = false := hw.empty_false (fun hh => hne (by rw [hh]; rfl))
    exact h2 hemp hnx
  · intro hnil
    rw [listOf] at hnil
    exact h1 (hw.empty_iff.mpr (List.map_eq_nil_iff.mp hnil))

theorem C2_erase_correct_witness :
    reach (ofList [(1 : Int), 2]) ∧
    toList (ofList [(1 : Int), 2]) = some [1, 2] ∧
    ((List.count (1 : Int) [1, 2] = 1 →
        ∃ s', erase (ofList [(1 : Int), 2]) 1 = .ok s' ∧
          s'.size + 1 = (ofList [(1 : Int), 2]).size ∧
          toList s' = some (List.erase [1, 2] (1 : Int))) ∧
      (([1, 2] : List Int) ≠ [] → (1 : Int) ∉ ([1, 2] : List Int) →
        erase (ofList [(1 : Int), 2]) 1 = .error .ValueNotFound (ofList [(1 : Int), 2])) ∧
      (([1, 2] : List Int) = [] →
        erase (ofList [(1 : Int), 2]) 1 = .error .EmptyContainer (ofList [(1 : Int), 2]))) :=
  ⟨(ofList_spec [(1 : Int), 2]).1, rfl,
    C2_erase_correct (ofList_spec [(1 : Int), 2]).1 [1, 2] rfl 1⟩

/-- C3: find(x) on a reachable non-empty list returns a pointer to the cell of
the FIRST node (in forward-traversal order) whose element equals x when x is
present; the null "not found" pointer as a normal (`Except.ok`) outcome when x
is absent; and raises EmptyContainer on the empty list. -/
theorem C3_find_correct {T : Type} [Inhabited T] [DecidableEq T] {s : SList T}
    (h : reach s) (l : List T) (hl : toList s = some l) (x : T) :
    (l = [] → find s x = .error .EmptyContainer) ∧
    (l ≠ [] → x ∉ l → find s x = .ok none) ∧
    (x ∈ l → ∃ ids i, idsOf s = some ids ∧ ids[l.indexOf x]? = some i ∧
      find s x = .ok (some i) ∧ dataAt? s i = some x) := by
  obtain ⟨ids, hw⟩ := reach_inv h
  have hleq : l = listOf s ids := by
    have h2 := hw.toList_eq
    rw [hl] at h2
    exact Option.some.inj h2
  subst hleq
  obtain ⟨h1, h2, h3⟩ := find_spec hw x
  refine ⟨?_, ?_, ?_⟩
  · intro hnil
    rw [listOf] at hnil
    exact h1 (hw.empty_iff.mpr (List.map_eq_nil_iff.mp hnil))
  · intro hne hnx
    have hemp : s.empty = false := hw.empty_false (fun hh => hne (by rw [hh]; rfl))
    exact h2 hemp hnx
  · intro hx
    obtain ⟨i, hfind, hget, hdata⟩ := h3 hx
    exact ⟨ids, i, hw.idsOf_eq, hget, hfind, hdata⟩

theorem C3_find_correct_witness :
    reach (ofList [(5 : Int), 7]) ∧
    toList (ofList [(5 : Int), 7]) = some [5, 7] ∧
    ((([5, 7] : List Int) = [] → find (ofList [(5 : Int), 7]) 7 = .error .EmptyContainer) ∧
      (([5, 7] : List Int) ≠ [] → (7 : Int) ∉ ([5, 7] : List Int) →
        find (ofList [(5 : Int), 7]) 7 = .ok none) ∧
      ((7 : Int) ∈ ([5, 7] : List Int) →
        ∃ ids i, idsOf (ofList [(5 : Int), 7]) = some ids ∧
          ids[List.indexOf (7 : Int) [5, 7]]? = some i ∧
          find (ofList [(5 : Int), 7]) 7 = .ok (some i) ∧
          dataAt? (ofList [(5 : Int), 7]) i = some 7)) :=
  ⟨(ofList_spec [(5 : Int), 7]).1, rfl,
    C3_find_correct (ofList_spec [(5 : Int), 7]).1 [5, 7] rfl 7⟩

/-- C4: insert_after(pos, v) on a reachable list containing pos splices a new
node holding v in immediately after the first occurrence of pos, increments
size() by one, preserves the order of all other elements, and when that first
occurrence was the tail the new node (the fresh cell `s.heap.length`) becomes
the tail; on a non-empty list without pos it raises ValueNotFound and on the
empty list EmptyContainer, leaving the state unchanged. -/
theorem C4_insert_after_correct {T : Type} [Inhabited T] [DecidableEq T]
    {s : SList T} (h : reach s) (l : List T) (hl : toList s = some l)
    (pos v : T) :
    (pos ∈ l → ∃ s', insert_after s pos v = .ok s' ∧
      s'.size = s.size + 1 ∧
      toList s' = some (l.take (l.indexOf pos + 1) ++ v :: l.drop (l.indexOf pos + 1)) ∧
      (l.indexOf pos + 1 = l.length → s'.m_last = some s.heap.length)) ∧
    (l ≠ [] → pos ∉ l → insert_after s pos v = .error .ValueNotFound s) ∧
    (l = [] → insert_after s pos v = .error .EmptyContainer s) := by
  obtain ⟨ids, hw⟩ := reach_inv h
  have hleq : l = listOf s ids := by
    have h2 := hw.toList_eq
    rw [hl] at h2
    exact Option.some.inj h2
  subst hleq
  obtain ⟨h1, h2, h3⟩ := insert_after_spec hw pos v
  have hlen : (listOf s ids).length = ids.length := by
    rw [listOf, List.length_map]
  refine ⟨?_, ?_, ?_⟩
  · intro hx
    obtain ⟨s', hok, hinv', _, hsz, htail, hlst⟩ := h3 hx
    refine ⟨s', hok, hsz, ?_, ?_⟩
    · rw [hinv'.toList_eq, hlst]
    · intro hh
      exact htail (by rw [← hlen]; exact hh)
  · intro hne hnx
    have hemp : s.empty = false := hw.empty_false (fun hh => hne (by rw [hh]; rfl))
    exact h2 hemp hnx
  · intro hnil
    rw [listOf] at hnil
    exact h1 (hw.empty_iff.mpr (List.map_eq_nil_iff.mp hnil))

theorem C4_insert_after_correct_witness :
    reach (ofList [(1 : Int), 2]) ∧
    toList (ofList [(1 : Int), 2]) = some [1, 2] ∧
    (((1 : Int) ∈ ([1, 2] : List Int) → ∃ s',
        insert_after (ofList [(1 : Int), 2]) 1 9 = .ok s' ∧
        s'.size = (ofList [(1 : Int), 2]).size + 1 ∧
        toList s' = some (List.take (List.indexOf (1 : Int) [1, 2] + 1) [1, 2] ++
          (9 : Int) :: List.drop (List.indexOf (1 : Int) [1, 2] + 1) [1, 2]) ∧
        (List.indexOf (1 : Int) [1, 2] + 1 = List.length ([1, 2] : List Int) →
          s'.m_last = some (ofList [(1 : Int), 2]).heap.length)) ∧
      (([1, 2] : List Int) ≠ [] → (1 : Int) ∉ ([1, 2] : List Int) →
        insert_after (ofList [(1 : Int), 2]) 1 9 =
          .error .ValueNotFound (ofList [(1 : Int), 2])) ∧
      (([1, 2] : List Int) = [] →
        insert_after (ofList [(1 : Int), 2]) 1 9 =
          .error .EmptyContainer (ofList [(1 : Int), 2]))) :=
  ⟨(ofList_spec [(1 : Int), 2]).1, rfl,
    C4_insert_after_correct (ofList_spec [(1 : Int), 2]).1 [1, 2] rfl 1 9⟩

/-- C5: whenever erase or insert_after raises on a reachable list, the state
carried out of the throw is unchanged: same size, same forward traversal, same
front and back. -/
theorem C5_error_no_mutation {T : Type} [Inhabited T] [DecidableEq T]
    {s : SList T} (h : reach s) (x v : T) :
    (∀ e s', erase s x = .error e s' → s'.size = s.size ∧
      toList s' = toList s ∧ front s' = front s ∧ back s' = back s) ∧
    (∀ e s', insert_after s x v = .error e s' → s'.size = s.size ∧
      toList s' = toList s ∧ front s' = front s ∧ back s' = back s) := by
  have hInv := reach_inv h
  constructor
  · intro e s' herr
    rw [erase_error_state hInv herr]
    exact ⟨rfl, rfl, rfl, rfl⟩
  · intro e s' herr
    rw [insert_after_error_state hInv herr]
    exact ⟨rfl, rfl, rfl, rfl⟩

theorem C5_error_no_mutation_witness :
    reach (ofList [(1 : Int)]) ∧
    ((∀ e s', erase (ofList [(1 : Int)]) 2 = .error e s' →
        s'.size = (ofList [(1 : Int)]).size ∧
        toList s' = toList (ofList [(1 : Int)]) ∧
        front s' = front (ofList [(1 : Int)]) ∧
        back s' = back (ofList [(1 : Int)])) ∧
      (∀ e s', insert_after (ofList [(1 : Int)]) 2 3 = .error e s' →
        s'.size = (ofList [(1 : Int)]).size ∧
        toList s' = toList (ofList [(1 : Int)]) ∧
        front s' = front (ofList [(1 : Int)]) ∧
        back s' = back (ofList [(1 : Int)]))) :=
  ⟨(ofList_spec [(1 : Int)]).1,
    C5_error_no_mutation (ofList_spec [(1 : Int)]).1 2 3⟩

/-- C6: on every non-empty list reachable by any finite sequence of
push_back/push_front/erase/insert_after/clear, front() returns the first
element of the forward traversal and back() the last. -/
theorem C6_front_back_consistent {T : Type} [Inhabited T] [DecidableEq T]
    {s : SList T} (h : reach s) (hne : s.empty = false) :
    ∃ l a b, toList s = some l ∧ l.head? = some a ∧ front s = .ok a ∧
      l.getLast? = some b ∧ back s = .ok b := by
  obtain ⟨ids, hw⟩ := reach_inv h
  have hids : ids ≠ [] := by
    intro hh
    rw [hw.empty_iff.mpr hh] at hne
    exact absurd hne (by simp)
  obtain ⟨a, b, hh, hf, hg, hb⟩ := front_back_of_invw hw hids
  exact ⟨listOf s ids, a, b, hw.toList_eq, hh, hf, hg, hb⟩

theorem C6_front_back_consistent_witness :
    reach (ofList [(3 : Int), 4]) ∧
    (ofList [(3 : Int), 4] : SList Int).empty = false ∧
    (∃ l a b, toList (ofList [(3 : Int), 4]) = some l ∧ l.head? = some a ∧
      front (ofList [(3 : Int), 4]) = .ok a ∧
      l.getLast? = some b ∧ back (ofList [(3 : Int), 4]) = .ok b) :=
  ⟨(ofList_spec [(3 : Int), 4]).1, rfl,
    C6_front_back_consistent (ofList_spec [(3 : Int), 4]).1 rfl⟩

/-- C7: on every reachable state empty() is true exactly when size() is 0 (and
empty() is a pure read), and invariant I3 holds: `m_last` is null exactly when
size() is 0, and otherwise points at the node whose next-link is null. -/
theorem C7_empty_iff_size_zero {T : Type} [Inhabited T] [DecidableEq T]
    {s : SList T} (h : reach s) :
    (s.empty = true ↔ s.size = 0) ∧
    (s.m_last = none ↔ s.size = 0) ∧
    (∀ i, s.m_last = some i → readNext s (some i) = .ok none) := by
  obtain ⟨ids, hw⟩ := reach_inv h
  have hsz : s.size = ids.length := hw.hsize
  refine ⟨?_, ?_, ?_⟩
  · rw [hw.empty_iff, hsz]
    exact ⟨fun hh => by rw [hh]; rfl, fun hh => List.length_eq_zero.mp hh⟩
  · rw [show s.m_last = ids.getLast? from hw.hlast, List.getLast?_eq_none_iff, hsz]
    exact ⟨fun hh => by rw [hh]; rfl, fun hh => List.length_eq_zero.mp hh⟩
  · intro i hi
    rw [hw.hlast] at hi
    obtain ⟨ndc, hgetc, hndc⟩ := InvW_last_get hw hi
    rw [readNext_some hgetc, hndc]

theorem C7_empty_iff_size_zero_witness :
    reach (ofList [(1 : Int)]) ∧
    (((ofList [(1 : Int)] : SList Int).empty = true ↔ (ofList [(1 : Int)] : SList Int).size = 0) ∧
      ((ofList [(1 : Int)] : SList Int).m_last = none ↔ (ofList [(1 : Int)] : SList Int).size = 0) ∧
      (∀ i, (ofList [(1 : Int)] : SList Int).m_last = some i →
        readNext (ofList [(1 : Int)]) (some i) = .ok none)) :=
  ⟨(ofList_spec [(1 : Int)]).1, C7_empty_iff_size_zero (ofList_spec [(1 : Int)]).1⟩

/-- C8: pushing v1..vn in order via push_back onto a fresh list (which is
exactly what the initializer-list constructor does) never throws and yields a
list whose forward traversal is v1, ..., vn and whose size() is n. -/
theorem C8_push_back_order {T : Type} [Inhabited T] (vs : List T) :
    ∃ s', pushAll s_list vs = .ok s' ∧ ofList vs = s' ∧
      toList s' = some vs ∧ s'.size = vs.length := by
  obtain ⟨s', ids', hok, hinv, hlst⟩ :=
    @pushAll_spec T _ vs _ _ (s_list_invw : InvW (s_list : SList T) [])
  have hvs : listOf s' ids' = vs := by
    rw [hlst]
    simp [listOf]
  refine ⟨s', hok, ?_, ?_, ?_⟩
  · unfold ofList
    rw [hok]
  · rw [hinv.toList_eq, hvs]
  · show s'.m_size = _
    rw [hinv.hsize, ← hvs, listOf, List.length_map]

theorem C8_push_back_order_witness :
    ∃ s', pushAll s_list [(1 : Int), 2, 3] = .ok s' ∧ ofList [(1 : Int), 2, 3] = s' ∧
      toList s' = some [(1 : Int), 2, 3] ∧ s'.size = List.length [(1 : Int), 2, 3] :=
  C8_push_back_order [(1 : Int), 2, 3]

/-- C9: clear() on any reachable list (empty or not) returns normally with
size() == 0 and empty() == true while retaining the sentinel (same `m_first`,
cell 0 still allocated), and a second clear() returns the very same state. -/
theorem C9_clear_idempotent {T : Type} [Inhabited T] [DecidableEq T]
    {s : SList T} (h : reach s) :
    ∃ s₁, clear s = .ok s₁ ∧ s₁.size = 0 ∧ s₁.empty = true ∧
      s₁.m_first = s.m_first ∧ (∃ nd, s₁.heap[0]? = some nd) ∧
      clear s₁ = .ok s₁ := by
  obtain ⟨ids, hw⟩ := reach_inv h
  obtain ⟨s₁, hok, hinv₁, hlen, hfst, hidem⟩ := clear_spec hw
  refine ⟨s₁, hok, ?_, ?_, hfst, ?_, hidem⟩
  · show s₁.m_size = 0
    rw [hinv₁.hsize]
    rfl
  · exact hinv₁.empty_iff.mpr rfl
  · obtain ⟨nd, hget0, _⟩ := hinv₁.sentinel_get
    exact ⟨nd, hget0⟩

theorem C9_clear_idempotent_witness :
    reach (ofList [(1 : Int), 2]) ∧
    (∃ s₁, clear (ofList [(1 : Int), 2]) = .ok s₁ ∧ s₁.size = 0 ∧ s₁.empty = true ∧
      s₁.m_first = (ofList [(1 : Int), 2] : SList Int).m_first ∧
      (∃ nd, s₁.heap[0]? = some nd) ∧ clear s₁ = .ok s₁) :=
  ⟨(ofList_spec [(1 : Int), 2]).1, C9_clear_idempotent (ofList_spec [(1 : Int), 2]).1⟩

/-- C10: advancing an iterator in the end state (null `m_ptr`) with operator++
raises InvalidNodeAccess — node::next's null guard fires inside
`m_ptr = m_ptr->next()` before the assignment — rather than being undefined
behaviour, and the iterator (unchanged) still supports equality comparison
with the end sentinel. -/
theorem C10_inc_end_iterator {T : Type} (s : SList T) (it : iterator)
    (h : it.m_ptr = none) :
    iterator.inc s it = .error .InvalidNodeAccess ∧
      iterator.eq it ⟨none⟩ = true := by
  constructor
  · unfold iterator.inc
    rw [h]
    rfl
  · simp [iterator.eq, h]

theorem C10_inc_end_iterator_witness :
    (⟨none⟩ : iterator).m_ptr = none ∧
    (iterator.inc (s_list : SList Int) ⟨none⟩ = .error .InvalidNodeAccess ∧
      iterator.eq ⟨none⟩ ⟨none⟩ = true) :=
  ⟨rfl, C10_inc_end_iterator (s_list : SList Int) ⟨none⟩ rfl⟩

end SListSpec
